import Mathlib

set_option linter.unusedVariables false

/-! Shallow embedding of the backup engine of `src/backup-utility-2.py`
(class `BackupWorker`, lines 16-113).

Modelling choices:
* Filesystem paths are lists of name components (`FPath`).  `os.path.join`
  appends components, `os.path.basename` is the last component, and
  `os.path.relpath root folder` for a walk root lying under `folder` is the
  list of components of `root` past `folder` (Python's `"."` result for
  `root = folder` is the empty list, which `os.path.join` then cancels, as
  the real path resolution does).
* The filesystem is a rose tree.  Regular files carry the metadata the code
  consults (`st_mtime`, `st_size`, permission bits) plus an abstract content
  tag; directories carry their listing in order (the order `os.walk` and
  hence the engine sees).  Directory metadata is not modelled: the engine
  only ever stats regular files in the situations the claims quantify over.
* Python exceptions are modelled by threading an `Option Err` next to the
  mutable worker state: `some e` is an exception propagating out of the
  modelled statement, and a `try/except Exception` block of the source is a
  `match` on that component.  `ZeroDivisionError` is an `Exception`
  subclass, so the bare `except Exception` handlers of the source catch it
  as well; a second raise inside a handler propagates.
* Operating-system failures that the code can only observe as exceptions
  (`shutil.copy2` or `os.makedirs` failing for external reasons such as
  permissions or a full disk) are injected through an `Env` of failure
  oracles.
* `os.walk` is iterated lazily by the source, but every mutation the engine
  performs happens under the destination folder; the model snapshots the
  walk, which agrees with the lazy walk whenever the destination root does
  not lie inside a source item (the situation of every claim).
* `int((processed / total) * 100)` is modelled as `processed * 100 / total`
  (natural floor division).  CPython computes this with binary floats; no
  claim depends on the rounded value beyond `processed = total` giving
  `100`, where the float computation is exact as well.
-/

abbrev FPath := List String

structure FileMeta where
  mtime : Int
  size : Nat
  perms : Nat
  content : Nat
deriving DecidableEq, Repr

inductive FSNode where
  | file (meta : FileMeta)
  | dir (children : List (String × FSNode))

/-- Look a name up in a directory listing (first entry wins, as the real
filesystem has at most one entry per name). -/
def lookupCh : List (String × FSNode) → String → Option FSNode
  | [], _ => none
  | (n, c) :: cs, a => if n = a then some c else lookupCh cs a

/-- Resolve a path from a node. -/
def lookup : FSNode → FPath → Option FSNode
  | n, [] => some n
  | .file _, _ :: _ => none
  | .dir cs, a :: rest =>
    match lookupCh cs a with
    | some c => lookup c rest
    | none => none

/-- Replace the first entry called `a`, or append a new one. -/
def setCh : List (String × FSNode) → String → FSNode → List (String × FSNode)
  | [], a, v => [(a, v)]
  | (n, c) :: cs, a, v => if n = a then (a, v) :: cs else (n, c) :: setCh cs a v

/-- Write a regular file at a path: the parent directories must already
exist, and the target must not be an existing directory (writing over an
existing file is allowed).  `none` models the corresponding `OSError`. -/
def setFile : FSNode → FPath → FileMeta → Option FSNode
  | _, [], _ => none
  | .file _, _ :: _, _ => none
  | .dir cs, [a], m =>
    match lookupCh cs a with
    | some (.dir _) => none
    | _ => some (.dir (setCh cs a (.file m)))
  | .dir cs, a :: b :: rest, m =>
    match lookupCh cs a with
    | some c =>
      match setFile c (b :: rest) m with
      | some c' => some (.dir (setCh cs a c'))
      | none => none
    | none => none

/-- Model of `os.makedirs` (default `exist_ok=False`): create every missing
directory along the path; fail if the final directory already exists or if
some component is a regular file. -/
def mkdirsGo : FSNode → FPath → Option FSNode
  | _, [] => none
  | .file _, _ :: _ => none
  | .dir cs, [a] =>
    match lookupCh cs a with
    | some _ => none
    | none => some (.dir (setCh cs a (.dir [])))
  | .dir cs, a :: b :: rest =>
    match lookupCh cs a with
    | some c =>
      match mkdirsGo c (b :: rest) with
      | some c' => some (.dir (setCh cs a c'))
      | none => none
    | none =>
      match mkdirsGo (.dir []) (b :: rest) with
      | some c' => some (.dir (setCh cs a c'))
      | none => none

def fileNames (cs : List (String × FSNode)) : List String :=
  cs.filterMap fun nc => match nc.2 with | .file _ => some nc.1 | .dir _ => none

def dirNames (cs : List (String × FSNode)) : List String :=
  cs.filterMap fun nc => match nc.2 with | .dir _ => some nc.1 | .file _ => none

abbrev WalkTriple := FPath × List String × List String

mutual
/-- Model of `os.walk` (top-down, default arguments): yield the triple for
the current directory, then recurse into each subdirectory in listing
order.  `os.walk` on a missing or non-directory path yields nothing
(`scandir` errors are swallowed by the default `onerror=None`). -/
def walkNode (root : FPath) : FSNode → List WalkTriple
  | .file _ => []
  | .dir cs => (root, dirNames cs, fileNames cs) :: walkChildren root cs

def walkChildren (root : FPath) : List (String × FSNode) → List WalkTriple
  | [] => []
  | (n, c) :: cs =>
    (match c with
     | .dir _ => walkNode (root ++ [n]) c
     | .file _ => []) ++ walkChildren root cs
end

def walk (fs : FSNode) (p : FPath) : List WalkTriple :=
  match lookup fs p with
  | some n => walkNode p n
  | none => []

def isfile (fs : FSNode) (p : FPath) : Bool :=
  match lookup fs p with
  | some (.file _) => true
  | _ => false

def isdir (fs : FSNode) (p : FPath) : Bool :=
  match lookup fs p with
  | some (.dir _) => true
  | _ => false

def pathExists (fs : FSNode) (p : FPath) : Bool :=
  (lookup fs p).isSome

/-- Metadata of the regular file at a path, if any. -/
def metaAt (fs : FSNode) (p : FPath) : Option FileMeta :=
  match lookup fs p with
  | some (.file m) => some m
  | _ => none

/-- Model of `os.path.basename`. -/
def basename (p : FPath) : String := p.getLastD ""

/-- Model of `os.path.relpath root folder` for a walk root lying under
`folder` (the only way the source calls it). -/
def relpath (root folder : FPath) : FPath := root.drop folder.length

/-- Failure oracles for the operating-system calls that can fail for
external reasons (permissions, disk full, ...). -/
structure Env where
  copyFails : FPath → FPath → Bool
  mkdirFails : FPath → Bool

def noFail : Env := ⟨fun _ _ => false, fun _ => false⟩

inductive Err where
  | zeroDivision
  | copyError
  | mkdirError
  | statError
deriving DecidableEq, Repr

/-- The shapes of the f-string messages the worker emits. -/
inductive Msg where
  | copied (src dst : FPath)
  | skippedNoChanges (p : FPath)
  | skippedError (p : FPath) (e : Err)
  | folderSummary (folder : FPath) (numFiles numCopied numSkipped : Nat)
  | skippedFolder (p : FPath) (e : Err)
deriving DecidableEq, Repr

/-- The worker's signals: `progress = pyqtSignal(str, int)` and
`completed = pyqtSignal()`. -/
inductive Event where
  | progress (m : Msg) (percent : Nat)
  | completed
deriving DecidableEq, Repr

/-- Mutable state of a `BackupWorker` run: the filesystem plus
`self.processed_files` and the ordered list of emitted signals. -/
structure WState where
  fs : FSNode
  processed : Nat
  events : List Event

/-- Model of `os.makedirs` including the externally injected failures. -/
def makedirs (env : Env) (fs : FSNode) (p : FPath) : Option FSNode :=
  if env.mkdirFails p then none else mkdirsGo fs p

/-- Model of `shutil.copy2`: copy content and metadata (size, mtime,
permission bits).  Fails if the environment injects a failure, if the
source is not a regular file, or if the destination parent is missing or
the destination is an existing directory. -/
def copy2 (env : Env) (fs : FSNode) (src dst : FPath) : Except Err FSNode :=
  if env.copyFails src dst then .error .copyError
  else
    match metaAt fs src with
    | none => .error .copyError
    | some m =>
      match setFile fs dst m with
      | some fs' => .ok fs'
      | none => .error .copyError

namespace BackupWorker

/-- Lines 46-49: `update_progress`.  `self.processed_files += 1` happens
before the division, so when `self.total_files` is `0` the counter is
already incremented when `ZeroDivisionError` is raised and no signal is
emitted. -/
def update_progress (total : Nat) (m : Msg) (s : WState) : WState × Option Err :=
  let s := { s with processed := s.processed + 1 }
  if total = 0 then (s, some .zeroDivision)
  else
    ({ s with events := s.events ++ [.progress m (s.processed * 100 / total)] },
     none)

/-- Lines 65-68: `is_same_file`.  A missing destination is `False`; the
`and` is short-circuiting, so sizes are only statted when the mtimes agree.
Statting something that is not a regular file is modelled as an error. -/
def is_same_file (fs : FSNode) (src dst : FPath) : Except Err Bool :=
  if !pathExists fs dst then .ok false
  else
    match (metaAt fs src).map FileMeta.mtime with
    | none => .error .statError
    | some ms =>
      match (metaAt fs dst).map FileMeta.mtime with
      | none => .error .statError
      | some md =>
        if ms ≠ md then .ok false
        else
          match (metaAt fs src).map FileMeta.size, (metaAt fs dst).map FileMeta.size with
          | some ss, some sd => .ok (ss = sd)
          | _, _ => .error .statError

/-- Line 52: the destination of a top-level file. -/
def destFileTop (destF : FPath) (file_path : FPath) : FPath :=
  destF ++ [basename file_path]

/-- Lines 51-63: `backup_file`.  The whole body is a `try` whose handler
emits a `Skipped {file} ({e})` progress message through `update_progress`;
an exception raised by that second `update_progress` call (only possible as
`ZeroDivisionError`) propagates. -/
def backup_file (env : Env) (total : Nat) (destF : FPath) (file_path : FPath)
    (s : WState) : WState × Option Err :=
  let dst := destFileTop destF file_path
  let body : WState × Option Err :=
    match is_same_file s.fs file_path dst with
    | .error e => (s, some e)
    | .ok same =>
      if !same then
        match copy2 env s.fs file_path dst with
        | .error e => (s, some e)
        | .ok fs' => update_progress total (.copied file_path dst) { s with fs := fs' }
      else update_progress total (.skippedNoChanges file_path) s
  match body with
  | (s', none) => (s', none)
  | (s', some e) => update_progress total (.skippedError file_path e) s'

/-- Line 87: the destination of a file found during the walk of a folder
item (`os.path.join(destination_path, relative_path, file)`). -/
def destFileIn (destination_path folder_path root : FPath) (file : String) : FPath :=
  destination_path ++ relpath root folder_path ++ [file]

/-- Lines 83-106: the body of the inner `for file in files` loop of
`backup_folder`, carrying `(num_files, num_copied, num_skipped)`.  Only
`shutil.copy2` and the `Copied` progress emission sit inside the inner
`try`; the `os.makedirs` at lines 90-91 and the `is_same_file` call do
not, so their exceptions propagate to the outer handler of
`backup_folder`. -/
def folderFileStep (env : Env) (total : Nat) (destination_path folder_path root : FPath)
    (file : String) (s : WState) (nf nc ns : Nat) :
    (WState × Nat × Nat × Nat) × Option Err :=
  let nf := nf + 1
  let file_path := root ++ [file]
  let destination_file_path := destFileIn destination_path folder_path root file
  let destination_file_dir := destination_path ++ relpath root folder_path
  match (if !pathExists s.fs destination_file_dir then
           makedirs env s.fs destination_file_dir
         else some s.fs) with
  | none => ((s, nf, nc, ns), some .mkdirError)
  | some fs1 =>
    let s := { s with fs := fs1 }
    match is_same_file s.fs file_path destination_file_path with
    | .error e => ((s, nf, nc, ns), some e)
    | .ok same =>
      if !same then
        match copy2 env s.fs file_path destination_file_path with
        | .ok fs2 =>
          let nc := nc + 1
          match update_progress total (.copied file_path destination_file_path)
              { s with fs := fs2 } with
          | (s', none) => ((s', nf, nc, ns), none)
          | (s', some e) =>
            let ns := ns + 1
            match update_progress total (.skippedError file_path e) s' with
            | (s'', oe) => ((s'', nf, nc, ns), oe)
        | .error e =>
          let ns := ns + 1
          match update_progress total (.skippedError file_path e) s with
          | (s', oe) => ((s', nf, nc, ns), oe)
      else
        let ns := ns + 1
        match update_progress total (.skippedNoChanges file_path) s with
        | (s', oe) => ((s', nf, nc, ns), oe)

/-- The `for file in files` loop over one walk triple. -/
def filesLoop (env : Env) (total : Nat) (destination_path folder_path root : FPath) :
    List String → WState → Nat → Nat → Nat → (WState × Nat × Nat × Nat) × Option Err
  | [], s, nf, nc, ns => ((s, nf, nc, ns), none)
  | file :: files, s, nf, nc, ns =>
    match folderFileStep env total destination_path folder_path root file s nf nc ns with
    | (acc, some e) => (acc, some e)
    | ((s', nf', nc', ns'), none) =>
      filesLoop env total destination_path folder_path root files s' nf' nc' ns'

/-- The `for root, dirs, files in os.walk(...)` loop. -/
def folderLoop (env : Env) (total : Nat) (destination_path folder_path : FPath) :
    List WalkTriple → WState → Nat → Nat → Nat → (WState × Nat × Nat × Nat) × Option Err
  | [], s, nf, nc, ns => ((s, nf, nc, ns), none)
  | (root, _dirs, files) :: rest, s, nf, nc, ns =>
    match filesLoop env total destination_path folder_path root files s nf nc ns with
    | (acc, some e) => (acc, some e)
    | ((s', nf', nc', ns'), none) =>
      folderLoop env total destination_path folder_path rest s' nf' nc' ns'

/-- Lines 70-113: `backup_folder`.  Everything from the `os.makedirs` of
the mirrored root to the folder summary emission sits inside one `try`;
the handler emits `Skipped folder: ... ({e})` through `update_progress`,
whose own exception (only possible as `ZeroDivisionError`) propagates. -/
def backup_folder (env : Env) (total : Nat) (destF : FPath) (folder_path : FPath)
    (s : WState) : WState × Option Err :=
  let folder_name := basename folder_path
  let destination_path := destF ++ [folder_name]
  let body : WState × Option Err :=
    match (if !pathExists s.fs destination_path then
             makedirs env s.fs destination_path
           else some s.fs) with
    | none => (s, some .mkdirError)
    | some fs1 =>
      let s := { s with fs := fs1 }
      match folderLoop env total destination_path folder_path
          (walk s.fs folder_path) s 0 0 0 with
      | ((s', nf, nc, ns), some e) => (s', some e)
      | ((s', nf, nc, ns), none) =>
        update_progress total (.folderSummary folder_path nf nc ns) s'
  match body with
  | (s', none) => (s', none)
  | (s', some e) => update_progress total (.skippedFolder folder_path e) s'

/-- Lines 36-44: `calculate_total_files`. -/
def calculate_total_files (fs : FSNode) (items : List FPath) : Nat :=
  items.foldl
    (fun t item =>
      if isfile fs item then t + 1
      else if isdir fs item then
        t + (walk fs item).foldl (fun a tr => a + tr.2.2.length) 0
      else t)
    0

/-- Lines 29-33: the `for item in self.items` loop of `run`.  An item that
is neither a regular file nor a directory at processing time falls through
both branches: nothing happens for it. -/
def runItems (env : Env) (total : Nat) (destF : FPath) :
    List FPath → WState → WState × Option Err
  | [], s => (s, none)
  | item :: rest, s =>
    if isfile s.fs item then
      match backup_file env total destF item s with
      | (s', none) => runItems env total destF rest s'
      | (s', some e) => (s', some e)
    else if isdir s.fs item then
      match backup_folder env total destF item s with
      | (s', none) => runItems env total destF rest s'
      | (s', some e) => (s', some e)
    else runItems env total destF rest s

/-- Lines 27-34: `run`.  `self.completed.emit()` happens after the loop;
an uncaught exception inside the loop terminates the `QThread.run` body
before the emission (`some e` in the result), in which case no
`completed` signal is appended. -/
def run (env : Env) (items : List FPath) (destF : FPath) (fs0 : FSNode) :
    WState × Option Err :=
  let total := calculate_total_files fs0 items
  match runItems env total destF items ⟨fs0, 0, []⟩ with
  | (s, none) => ({ s with events := s.events ++ [.completed] }, none)
  | (s, some e) => (s, some e)

end BackupWorker

open BackupWorker

/-- Boolean path-prefix test: `pre q p` holds when `q` is a prefix of `p`. -/
def pre : FPath → FPath → Bool
  | [], _ => true
  | _ :: _, [] => false
  | a :: as, b :: bs => if a = b then pre as bs else false

/-- A `Copied ...` progress emission (line 56 / line 97). -/
def isCopiedEvent : Event → Bool
  | .progress (.copied _ _) _ => true
  | _ => false

/-- A progress emission carrying an exception reason (lines 62, 101, 112):
the code paths the spec's `Failed(reason)` outcome abstracts. -/
def isFailureEvent : Event → Bool
  | .progress (.skippedError _ _) _ => true
  | .progress (.skippedFolder _ _) _ => true
  | _ => false

/-- A `Skipped ... (No changes)` progress emission (line 59 / line 105):
the spec's `Skipped(unchanged)` outcome. -/
def isSkipEvent : Event → Bool
  | .progress (.skippedNoChanges _) _ => true
  | _ => false

/-- The spec's `needsCopy(sourcePath, destPath)` as the engine uses the
change detector: the call sites read `if not self.is_same_file(...)`
(lines 54 and 93). -/
def needsCopy (fs : FSNode) (src dst : FPath) : Except Err Bool :=
  match is_same_file fs src dst with
  | .ok b => .ok (!b)
  | .error e => .error e

/-- Per-name uniqueness of a directory listing. -/
def nodupKeys : List String → Bool
  | [] => true
  | a :: as => decide (a ∉ as) && nodupKeys as

mutual
/-- Well-formedness of a filesystem tree: every directory listing has
pairwise distinct names (true of a real filesystem). -/
def wfNode : FSNode → Bool
  | .file _ => true
  | .dir cs => nodupKeys (cs.map Prod.fst) && wfChildren cs

def wfChildren : List (String × FSNode) → Bool
  | [] => true
  | (_, c) :: cs => wfNode c && wfChildren cs
end

/-- The (source file, destination file) pairs an item contributes, in the
order the engine processes them. -/
def pairsOfItem (fs0 : FSNode) (destF i : FPath) : List (FPath × FPath) :=
  if isfile fs0 i then [(i, destFileTop destF i)]
  else if isdir fs0 i then
    (walk fs0 i).flatMap fun tr =>
      tr.2.2.map fun f => (tr.1 ++ [f], destFileIn (destF ++ [basename i]) i tr.1 f)
  else []

def jobPairs (fs0 : FSNode) (destF : FPath) (items : List FPath) :
    List (FPath × FPath) :=
  items.flatMap (pairsOfItem fs0 destF)

/-- The destination directories a directory item makes the engine ensure. -/
def dirsOfItem (fs0 : FSNode) (destF i : FPath) : List FPath :=
  if isdir fs0 i then
    (walk fs0 i).map fun tr => destF ++ [basename i] ++ relpath tr.1 i
  else []

def jobDirs (fs0 : FSNode) (destF : FPath) (items : List FPath) : List FPath :=
  items.flatMap (dirsOfItem fs0 destF)

/-- Source paths outside the destination subtree are untouched. -/
def SrcPristine (fs0 : FSNode) (destF : FPath) (fs : FSNode) : Prop :=
  ∀ q, pre q destF = false → pre destF q = false → lookup fs q = lookup fs0 q

/-- Every listed (source, destination) pair carries equal file metadata. -/
def MirroredAll (fs0 fs : FSNode) (pairs : List (FPath × FPath)) : Prop :=
  ∀ p ∈ pairs, metaAt fs p.2 = metaAt fs0 p.1

/-- Every listed pair's destination is either still absent or already
mirrored. -/
def FreshOrMirrored (fs0 fs : FSNode) (pairs : List (FPath × FPath)) : Prop :=
  ∀ p ∈ pairs, pathExists fs p.2 = false ∨ metaAt fs p.2 = metaAt fs0 p.1

/-- Everything strictly below the destination root is a directory or one of
the already-mirrored files. -/
def DestShape (fs : FSNode) (destF : FPath) (done : List (FPath × FPath)) : Prop :=
  ∀ q, pre destF q = true → q ≠ destF → pathExists fs q = true →
    isdir fs q = true ∨ ∃ sp, (sp, q) ∈ done

/-- Invariant threaded through a first run over an initially empty
destination root. -/
structure RunInv (fs0 : FSNode) (destF : FPath) (fs : FSNode)
    (done todo : List (FPath × FPath)) (dirsDone : List FPath) : Prop where
  src : SrcPristine fs0 destF fs
  mirrored : MirroredAll fs0 fs done
  fresh : FreshOrMirrored fs0 fs todo
  shape : DestShape fs destF done
  dirs : ∀ d ∈ dirsDone, isdir fs d = true
  root : isdir fs destF = true

/-- Hypotheses of the two-run idempotence setting: a well-formed source
tree, an existing empty destination root disjoint from every item, and
pairwise distinct item basenames (so distinct items map to distinct
destinations). -/
structure JobCtx (fs0 : FSNode) (destF : FPath) (items : List FPath) : Prop where
  wf : wfNode fs0 = true
  destRoot : lookup fs0 destF = some (.dir [])
  disj : ∀ i ∈ items, pre i destF = false ∧ pre destF i = false
  base : items.Pairwise (fun a b => basename a ≠ basename b)

/-! Concrete fixtures used by counterexamples and witnesses. -/

def mA : FileMeta := ⟨10, 5, 420, 100⟩
def mB : FileMeta := ⟨20, 5, 420, 200⟩
def mC : FileMeta := ⟨30, 7, 420, 300⟩

/-- One folder holding one file, plus an empty destination root. -/
def fsOneFolder : FSNode :=
  .dir [("src", .dir [("a", .file mA)]), ("dst", .dir [])]

/-- One empty folder plus an empty destination root: a zero-unit job. -/
def fsEmptyDir : FSNode := .dir [("src", .dir []), ("dst", .dir [])]

/-- Two empty folders plus an empty destination root. -/
def fsTwoEmptyDirs : FSNode :=
  .dir [("s1", .dir []), ("s2", .dir []), ("dst", .dir [])]

/-- Only a destination root; any other item path is dangling. -/
def fsNoGhost : FSNode := .dir [("dst", .dir [])]

/-- Two files with the same basename in different folders. -/
def fsCollide : FSNode :=
  .dir [("d1", .dir [("b", .file mA)]), ("d2", .dir [("b", .file mB)]),
        ("dst", .dir [])]

/-- A folder with a failing subtree and a healthy one, plus a standalone
file item. -/
def fsBadGood : FSNode :=
  .dir [("src", .dir [("bad", .dir [("x", .file mA)]),
                      ("good", .dir [("y", .file mB)])]),
        ("z", .file mC), ("dst", .dir [])]

/-- Environment in which creating `dst/src/bad` fails. -/
def envBadDir : Env := ⟨fun _ _ => false, fun p => p == ["dst", "src", "bad"]⟩

/-- A nested source tree `source/a/b/c.txt`. -/
def fsDeep : FSNode :=
  .dir [("source", .dir [("a", .dir [("b", .dir [("c.txt", .file mA)])])]),
        ("dst", .dir [])]

/-- Three sibling files, one of which cannot be copied. -/
def fsBadCopy : FSNode :=
  .dir [("a", .dir [("f1", .file mA), ("f2", .file mB), ("f3", .file mC)]),
        ("dst", .dir [])]

/-- Environment in which copying `a/f2` fails. -/
def envBadCopy : Env := ⟨fun src _ => src == ["a", "f2"], fun _ => false⟩

/-- First run of the basename-colliding job. -/
def runCollide1 : WState × Option Err :=
  BackupWorker.run noFail [["d1", "b"], ["d2", "b"]] ["dst"] fsCollide

/-- Second run of the basename-colliding job, on the filesystem the first
run left behind (no source modification in between). -/
def runCollide2 : WState × Option Err :=
  BackupWorker.run noFail [["d1", "b"], ["d2", "b"]] ["dst"] runCollide1.1.fs

/-- Run of the nested-tree job with the directory as the item. -/
def runDeep : WState × Option Err :=
  BackupWorker.run noFail [["source"]] ["dst"] fsDeep

/-- Run of the nested-tree job with the leaf file as the item. -/
def runDeepTop : WState × Option Err :=
  BackupWorker.run noFail [["source", "a", "b", "c.txt"]] ["dst"] fsDeep

/-- Run of the three-file job in which the middle copy fails. -/
def runBadCopy : WState × Option Err :=
  BackupWorker.run envBadCopy [["a", "f1"], ["a", "f2"], ["a", "f3"]] ["dst"] fsBadCopy

/-- Run of the failing-subtree job followed by a standalone file item. -/
def runBadDir : WState × Option Err :=
  BackupWorker.run envBadDir [["src"], ["z"]] ["dst"] fsBadGood

/-! ## Theorems -/

/-! ### Path and filesystem lemmas -/

lemma pre_refl (p : FPath) : pre p p = true := by
  induction p with
  | nil => rfl
  | cons a as ih => simp [pre, ih]

lemma pre_iff {q p : FPath} : pre q p = true ↔ ∃ t, p = q ++ t := by
  induction q generalizing p with
  | nil => simp [pre]
  | cons a as ih =>
    cases p with
    | nil => simp [pre]
    | cons b bs =>
      by_cases h : a = b
      · subst h
        simp [pre, ih]
      · constructor
        · intro hf
          simp [pre, h] at hf
        · rintro ⟨t, ht⟩
          injection ht with h1 h2
          exact absurd h1.symm h

lemma pre_length {q p : FPath} (h : pre q p = true) : q.length ≤ p.length := by
  obtain ⟨t, rfl⟩ := pre_iff.mp h
  simp

lemma pre_append_cancel (a b c : FPath) : pre (a ++ b) (a ++ c) = pre b c := by
  induction a with
  | nil => rfl
  | cons x xs ih => simp [pre, ih]

lemma pre_head_eq {x y : String} {u v : FPath}
    (h : pre (x :: u) (y :: v) = true) : x = y := by
  by_contra hne
  simp [pre, hne] at h

lemma pre_cons_cons {x y : String} {u v : FPath} (hxy : x = y) :
    pre (x :: u) (y :: v) = pre u v := by
  simp [pre, hxy]

lemma lookup_append (a : FPath) : ∀ (fs : FSNode) (b : FPath),
    lookup fs (a ++ b) = (lookup fs a).bind fun n => lookup n b := by
  induction a with
  | nil => intro fs b; simp [lookup]
  | cons x xs ih =>
    intro fs b
    cases fs with
    | file m => simp [lookup]
    | dir cs =>
      simp only [List.cons_append, lookup]
      cases h : lookupCh cs x with
      | none => simp
      | some c => simp [ih]

lemma lookupCh_setCh (cs : List (String × FSNode)) (a : String) (v : FSNode)
    (b : String) :
    lookupCh (setCh cs a v) b = if b = a then some v else lookupCh cs b := by
  induction cs with
  | nil =>
    by_cases h : b = a
    · subst h
      simp [setCh, lookupCh]
    · simp [setCh, lookupCh, h, Ne.symm h]
  | cons nc cs ih =>
    obtain ⟨n, c⟩ := nc
    by_cases hna : n = a
    · subst hna
      by_cases hb : b = n <;> simp [setCh, lookupCh, hb, eq_comm]
    · by_cases hnb : n = b
      · subst hnb
        simp [setCh, lookupCh, hna, Ne.symm hna]
      · simp [setCh, lookupCh, hna, hnb, ih]

lemma metaAt_dir_cons (cs : List (String × FSNode)) (x : String) (q : FPath) :
    metaAt (.dir cs) (x :: q) =
      match lookupCh cs x with
      | some c => metaAt c q
      | none => none := by
  unfold metaAt
  simp only [lookup]
  cases lookupCh cs x with
  | none => rfl
  | some c => rfl

lemma isdir_dir_cons (cs : List (String × FSNode)) (x : String) (q : FPath) :
    isdir (.dir cs) (x :: q) =
      match lookupCh cs x with
      | some c => isdir c q
      | none => false := by
  unfold isdir
  simp only [lookup]
  cases lookupCh cs x with
  | none => rfl
  | some c => rfl

lemma pathExists_dir_cons (cs : List (String × FSNode)) (x : String) (q : FPath) :
    pathExists (.dir cs) (x :: q) =
      match lookupCh cs x with
      | some c => pathExists c q
      | none => false := by
  unfold pathExists
  simp only [lookup]
  cases lookupCh cs x with
  | none => rfl
  | some c => rfl

lemma isfile_dir_cons (cs : List (String × FSNode)) (x : String) (q : FPath) :
    isfile (.dir cs) (x :: q) =
      match lookupCh cs x with
      | some c => isfile c q
      | none => false := by
  unfold isfile
  simp only [lookup]
  cases lookupCh cs x with
  | none => rfl
  | some c => rfl

lemma setFile_metaAt : ∀ (p : FPath) (fs : FSNode) (m : FileMeta) (fs' : FSNode),
    setFile fs p m = some fs' →
    ∀ q, metaAt fs' q = if q = p then some m else metaAt fs q := by
  intro p
  induction p with
  | nil => intro fs m fs' h; simp [setFile] at h
  | cons a p' ih =>
    intro fs m fs' h
    cases fs with
    | file mf => simp [setFile] at h
    | dir cs =>
      cases p' with
      | nil =>
        simp only [setFile] at h
        rcases hch : lookupCh cs a with _ | c
        · rw [hch] at h
          simp at h
          subst h
          intro q
          cases q with
          | nil => simp [metaAt, lookup]
          | cons x q' =>
            by_cases hxa : x = a
            · subst hxa
              cases q' with
              | nil => simp [metaAt, lookup, lookupCh_setCh]
              | cons y q'' =>
                simp [metaAt, lookup, lookupCh_setCh, hch]
            · have hne : (x :: q') ≠ [a] := by simp [hxa]
              simp [metaAt, lookup, lookupCh_setCh, hxa, hne]
        · rw [hch] at h
          cases c with
          | dir cs2 => simp at h
          | file m0 =>
            simp at h
            subst h
            intro q
            cases q with
            | nil => simp [metaAt, lookup]
            | cons x q' =>
              by_cases hxa : x = a
              · subst hxa
                cases q' with
                | nil => simp [metaAt, lookup, lookupCh_setCh, hch]
                | cons y q'' =>
                  simp [metaAt, lookup, lookupCh_setCh, hch]
              · have hne : (x :: q') ≠ [a] := by simp [hxa]
                simp [metaAt, lookup, lookupCh_setCh, hxa, hne]
      | cons b rest =>
        simp only [setFile] at h
        rcases hch : lookupCh cs a with _ | c
        · rw [hch] at h; simp at h
        · rw [hch] at h
          simp only [Option.some.injEq] at h
          rcases hrec : setFile c (b :: rest) m with _ | c'
          · rw [hrec] at h; simp at h
          · rw [hrec] at h
            simp at h
            subst h
            intro q
            cases q with
            | nil => simp [metaAt, lookup]
            | cons x q' =>
              by_cases hxa : x = a
              · subst hxa
                simp only [metaAt_dir_cons, lookupCh_setCh, hch, if_pos rfl,
                  List.cons.injEq, true_and, if_true]
                rw [ih c m c' hrec q']
              · have hne : (x :: q') ≠ (a :: b :: rest) := by simp [hxa]
                simp [metaAt_dir_cons, lookupCh_setCh, hxa, hne]

lemma setFile_lookup_out : ∀ (p : FPath) (fs : FSNode) (m : FileMeta) (fs' : FSNode),
    setFile fs p m = some fs' →
    ∀ q, pre q p = false → lookup fs' q = lookup fs q := by
  intro p
  induction p with
  | nil => intro fs m fs' h; simp [setFile] at h
  | cons a p' ih =>
    intro fs m fs' h
    cases fs with
    | file mf => simp [setFile] at h
    | dir cs =>
      cases p' with
      | nil =>
        simp only [setFile] at h
        rcases hch : lookupCh cs a with _ | c
        · rw [hch] at h
          simp at h
          subst h
          intro q hq
          cases q with
          | nil => simp [pre] at hq
          | cons x q' =>
            by_cases hxa : x = a
            · subst hxa
              have hq' : q' ≠ [] := by
                intro hcon; subst hcon; simp [pre] at hq
              cases q' with
              | nil => exact absurd rfl hq'
              | cons y q'' => simp [lookup, lookupCh_setCh, hch]
            · simp [lookup, lookupCh_setCh, hxa]
        · rw [hch] at h
          cases c with
          | dir cs2 => simp at h
          | file m0 =>
            simp at h
            subst h
            intro q hq
            cases q with
            | nil => simp [pre] at hq
            | cons x q' =>
              by_cases hxa : x = a
              · subst hxa
                have hq' : q' ≠ [] := by
                  intro hcon; subst hcon; simp [pre] at hq
                cases q' with
                | nil => exact absurd rfl hq'
                | cons y q'' => simp [lookup, lookupCh_setCh, hch]
              · simp [lookup, lookupCh_setCh, hxa]
      | cons b rest =>
        simp only [setFile] at h
        rcases hch : lookupCh cs a with _ | c
        · rw [hch] at h; simp at h
        · rw [hch] at h
          simp only [Option.some.injEq] at h
          rcases hrec : setFile c (b :: rest) m with _ | c'
          · rw [hrec] at h; simp at h
          · rw [hrec] at h
            simp at h
            subst h
            intro q hq
            cases q with
            | nil => simp [pre] at hq
            | cons x q' =>
              by_cases hxa : x = a
              · subst hxa
                have hq' : pre q' (b :: rest) = false := by
                  rw [pre_cons_cons rfl] at hq; exact hq
                simp [lookup, lookupCh_setCh, hch, ih c m c' hrec q' hq']
              · simp [lookup, lookupCh_setCh, hxa]

lemma isdir_file (m : FileMeta) (q : FPath) : isdir (.file m) q = false := by
  cases q <;> simp [isdir, lookup]

lemma pathExists_file_cons (m : FileMeta) (x : String) (q : FPath) :
    pathExists (.file m) (x :: q) = false := by simp [pathExists, lookup]

lemma pre_nil_right (q : FPath) : pre q [] = true ↔ q = [] := by
  cases q <;> simp [pre]

lemma setFile_isdir_mono : ∀ (p : FPath) (fs : FSNode) (m : FileMeta) (fs' : FSNode),
    setFile fs p m = some fs' →
    ∀ q, isdir fs q = true → isdir fs' q = true := by
  intro p
  induction p with
  | nil => intro fs m fs' h; simp [setFile] at h
  | cons a p' ih =>
    intro fs m fs' h
    cases fs with
    | file mf => simp [setFile] at h
    | dir cs =>
      cases p' with
      | nil =>
        simp only [setFile] at h
        rcases hch : lookupCh cs a with _ | c
        · rw [hch] at h
          simp at h
          subst h
          intro q hq
          cases q with
          | nil => simp [isdir, lookup]
          | cons x q' =>
            by_cases hxa : x = a
            · subst hxa
              simp [isdir_dir_cons, hch] at hq
            · simp [isdir_dir_cons, lookupCh_setCh, hxa] at hq ⊢
              exact hq
        · rw [hch] at h
          cases c with
          | dir cs2 => simp at h
          | file m0 =>
            simp at h
            subst h
            intro q hq
            cases q with
            | nil => simp [isdir, lookup]
            | cons x q' =>
              by_cases hxa : x = a
              · subst hxa
                simp [isdir_dir_cons, hch, isdir_file] at hq
              · simp [isdir_dir_cons, lookupCh_setCh, hxa] at hq ⊢
                exact hq
      | cons b rest =>
        simp only [setFile] at h
        rcases hch : lookupCh cs a with _ | c
        · rw [hch] at h; simp at h
        · rw [hch] at h
          simp only [Option.some.injEq] at h
          rcases hrec : setFile c (b :: rest) m with _ | c'
          · rw [hrec] at h; simp at h
          · rw [hrec] at h
            simp at h
            subst h
            intro q hq
            cases q with
            | nil => simp [isdir, lookup]
            | cons x q' =>
              by_cases hxa : x = a
              · subst hxa
                simp only [isdir_dir_cons, lookupCh_setCh, if_pos rfl, hch] at hq ⊢
                exact ih c m c' hrec q' hq
              · simp [isdir_dir_cons, lookupCh_setCh, hxa] at hq ⊢
                exact hq

lemma setFile_exists_mono : ∀ (p : FPath) (fs : FSNode) (m : FileMeta) (fs' : FSNode),
    setFile fs p m = some fs' →
    ∀ q, pathExists fs q = true → pathExists fs' q = true := by
  intro p
  induction p with
  | nil => intro fs m fs' h; simp [setFile] at h
  | cons a p' ih =>
    intro fs m fs' h
    cases fs with
    | file mf => simp [setFile] at h
    | dir cs =>
      cases p' with
      | nil =>
        simp only [setFile] at h
        rcases hch : lookupCh cs a with _ | c
        · rw [hch] at h
          simp at h
          subst h
          intro q hq
          cases q with
          | nil => simp [pathExists, lookup]
          | cons x q' =>
            by_cases hxa : x = a
            · subst hxa
              simp [pathExists_dir_cons, hch] at hq
            · simp [pathExists_dir_cons, lookupCh_setCh, hxa] at hq ⊢
              exact hq
        · rw [hch] at h
          cases c with
          | dir cs2 => simp at h
          | file m0 =>
            simp at h
            subst h
            intro q hq
            cases q with
            | nil => simp [pathExists, lookup]
            | cons x q' =>
              by_cases hxa : x = a
              · subst hxa
                cases q' with
                | nil => simp [pathExists_dir_cons, lookupCh_setCh, pathExists, lookup]
                | cons y q'' =>
                  simp [pathExists_dir_cons, hch, pathExists_file_cons] at hq
              · simp [pathExists_dir_cons, lookupCh_setCh, hxa] at hq ⊢
                exact hq
      | cons b rest =>
        simp only [setFile] at h
        rcases hch : lookupCh cs a with _ | c
        · rw [hch] at h; simp at h
        · rw [hch] at h
          simp only [Option.some.injEq] at h
          rcases hrec : setFile c (b :: rest) m with _ | c'
          · rw [hrec] at h; simp at h
          · rw [hrec] at h
            simp at h
            subst h
            intro q hq
            cases q with
            | nil => simp [pathExists, lookup]
            | cons x q' =>
              by_cases hxa : x = a
              · subst hxa
                simp only [pathExists_dir_cons, lookupCh_setCh, if_pos rfl, hch] at hq ⊢
                exact ih c m c' hrec q' hq
              · simp [pathExists_dir_cons, lookupCh_setCh, hxa] at hq ⊢
                exact hq

lemma setFile_exists_rev : ∀ (p : FPath) (fs : FSNode) (m : FileMeta) (fs' : FSNode),
    setFile fs p m = some fs' →
    ∀ q, pathExists fs' q = true → pathExists fs q = true ∨ q = p := by
  intro p
  induction p with
  | nil => intro fs m fs' h; simp [setFile] at h
  | cons a p' ih =>
    intro fs m fs' h
    cases fs with
    | file mf => simp [setFile] at h
    | dir cs =>
      cases p' with
      | nil =>
        simp only [setFile] at h
        rcases hch : lookupCh cs a with _ | c
        · rw [hch] at h
          simp at h
          subst h
          intro q hq
          cases q with
          | nil => left; simp [pathExists, lookup]
          | cons x q' =>
            by_cases hxa : x = a
            · subst hxa
              cases q' with
              | nil => right; rfl
              | cons y q'' =>
                simp [pathExists_dir_cons, lookupCh_setCh, pathExists_file_cons] at hq
            · left
              simp [pathExists_dir_cons, lookupCh_setCh, hxa] at hq ⊢
              exact hq
        · rw [hch] at h
          cases c with
          | dir cs2 => simp at h
          | file m0 =>
            simp at h
            subst h
            intro q hq
            cases q with
            | nil => left; simp [pathExists, lookup]
            | cons x q' =>
              by_cases hxa : x = a
              · subst hxa
                cases q' with
                | nil => right; rfl
                | cons y q'' =>
                  simp [pathExists_dir_cons, lookupCh_setCh, pathExists_file_cons] at hq
              · left
                simp [pathExists_dir_cons, lookupCh_setCh, hxa] at hq ⊢
                exact hq
      | cons b rest =>
        simp only [setFile] at h
        rcases hch : lookupCh cs a with _ | c
        · rw [hch] at h; simp at h
        · rw [hch] at h
          simp only [Option.some.injEq] at h
          rcases hrec : setFile c (b :: rest) m with _ | c'
          · rw [hrec] at h; simp at h
          · rw [hrec] at h
            simp at h
            subst h
            intro q hq
            cases q with
            | nil => left; simp [pathExists, lookup]
            | cons x q' =>
              by_cases hxa : x = a
              · subst hxa
                simp only [pathExists_dir_cons, lookupCh_setCh, if_pos rfl, hch] at hq
                rcases ih c m c' hrec q' hq with h1 | h1
                · left
                  simp [pathExists_dir_cons, hch]
                  exact h1
                · right
                  rw [h1]
              · left
                simp [pathExists_dir_cons, lookupCh_setCh, hxa] at hq ⊢
                exact hq

lemma mkdirsGo_inv_cons_cons {cs : List (String × FSNode)} {a b : String}
    {rest : FPath} {fs' : FSNode}
    (h : mkdirsGo (.dir cs) (a :: b :: rest) = some fs') :
    ∃ c0 c', (lookupCh cs a = some c0 ∧ mkdirsGo c0 (b :: rest) = some c' ∨
              lookupCh cs a = none ∧ mkdirsGo (.dir []) (b :: rest) = some c') ∧
      fs' = .dir (setCh cs a c') := by
  simp only [mkdirsGo] at h
  rcases hch : lookupCh cs a with _ | c0
  · rw [hch] at h
    simp only at h
    rcases hrec : mkdirsGo (.dir []) (b :: rest) with _ | c'
    · rw [hrec] at h; simp at h
    · rw [hrec] at h
      simp at h
      exact ⟨.dir [], c', Or.inr ⟨rfl, rfl⟩, h.symm⟩
  · rw [hch] at h
    simp only at h
    rcases hrec : mkdirsGo c0 (b :: rest) with _ | c'
    · rw [hrec] at h; simp at h
    · rw [hrec] at h
      simp at h
      exact ⟨c0, c', Or.inl ⟨rfl, hrec⟩, h.symm⟩

lemma mkdirsGo_inv_single {cs : List (String × FSNode)} {a : String} {fs' : FSNode}
    (h : mkdirsGo (.dir cs) [a] = some fs') :
    lookupCh cs a = none ∧ fs' = .dir (setCh cs a (.dir [])) := by
  simp only [mkdirsGo] at h
  rcases hch : lookupCh cs a with _ | c0
  · rw [hch] at h
    simp at h
    exact ⟨rfl, h.symm⟩
  · rw [hch] at h
    simp at h

lemma mkdirsGo_isdir_pre : ∀ (p : FPath) (fs fs' : FSNode),
    mkdirsGo fs p = some fs' →
    ∀ q, pre q p = true → isdir fs' q = true := by
  intro p
  induction p with
  | nil => intro fs fs' h; simp [mkdirsGo] at h
  | cons a p' ih =>
    intro fs fs' h
    cases fs with
    | file mf => simp [mkdirsGo] at h
    | dir cs =>
      cases p' with
      | nil =>
        obtain ⟨hch, rfl⟩ := mkdirsGo_inv_single h
        intro q hq
        cases q with
        | nil => simp [isdir, lookup]
        | cons x q' =>
          have hx := pre_head_eq hq
          subst hx
          rw [pre_cons_cons rfl] at hq
          have : q' = [] := (pre_nil_right q').mp hq
          subst this
          simp [isdir_dir_cons, lookupCh_setCh, isdir, lookup]
      | cons b rest =>
        obtain ⟨c0, c', hbr, rfl⟩ := mkdirsGo_inv_cons_cons h
        intro q hq
        cases q with
        | nil => simp [isdir, lookup]
        | cons x q' =>
          have hx := pre_head_eq hq
          subst hx
          rw [pre_cons_cons rfl] at hq
          rcases hbr with ⟨hch, hrec⟩ | ⟨hch, hrec⟩ <;>
            simp only [isdir_dir_cons, lookupCh_setCh, if_pos rfl] <;>
            exact ih _ c' hrec q' hq

lemma mkdirsGo_lookup_out : ∀ (p : FPath) (fs fs' : FSNode),
    mkdirsGo fs p = some fs' →
    ∀ q, pre q p = false → lookup fs' q = lookup fs q := by
  intro p
  induction p with
  | nil => intro fs fs' h; simp [mkdirsGo] at h
  | cons a p' ih =>
    intro fs fs' h
    cases fs with
    | file mf => simp [mkdirsGo] at h
    | dir cs =>
      cases p' with
      | nil =>
        obtain ⟨hch, rfl⟩ := mkdirsGo_inv_single h
        intro q hq
        cases q with
        | nil => simp [pre] at hq
        | cons x q' =>
          by_cases hxa : x = a
          · subst hxa
            have hq' : q' ≠ [] := by
              intro hcon; subst hcon; simp [pre] at hq
            cases q' with
            | nil => exact absurd rfl hq'
            | cons y q'' => simp [lookup, lookupCh_setCh, lookupCh, hch]
          · simp [lookup, lookupCh_setCh, hxa]
      | cons b rest =>
        obtain ⟨c0, c', hbr, rfl⟩ := mkdirsGo_inv_cons_cons h
        intro q hq
        cases q with
        | nil => simp [pre] at hq
        | cons x q' =>
          by_cases hxa : x = a
          · subst hxa
            rw [pre_cons_cons rfl] at hq
            rcases hbr with ⟨hch, hrec⟩ | ⟨hch, hrec⟩
            · simp [lookup, lookupCh_setCh, hch, ih _ c' hrec q' hq]
            · have hq' : q' ≠ [] := by
                intro hcon; subst hcon; simp [pre] at hq
              have hl := ih _ c' hrec q' hq
              cases q' with
              | nil => exact absurd rfl hq'
              | cons y q'' => simp [lookup, lookupCh_setCh, lookupCh, hch, hl]
          · simp [lookup, lookupCh_setCh, hxa]

lemma mkdirsGo_metaAt : ∀ (p : FPath) (fs fs' : FSNode),
    mkdirsGo fs p = some fs' →
    ∀ q, metaAt fs' q = metaAt fs q := by
  intro p
  induction p with
  | nil => intro fs fs' h; simp [mkdirsGo] at h
  | cons a p' ih =>
    intro fs fs' h
    cases fs with
    | file mf => simp [mkdirsGo] at h
    | dir cs =>
      cases p' with
      | nil =>
        obtain ⟨hch, rfl⟩ := mkdirsGo_inv_single h
        intro q
        cases q with
        | nil => simp [metaAt, lookup]
        | cons x q' =>
          by_cases hxa : x = a
          · subst hxa
            cases q' with
            | nil => simp [metaAt, lookup, lookupCh_setCh, hch]
            | cons y q'' => simp [metaAt, lookup, lookupCh_setCh, lookupCh, hch]
          · simp [metaAt_dir_cons, lookupCh_setCh, hxa]
      | cons b rest =>
        obtain ⟨c0, c', hbr, rfl⟩ := mkdirsGo_inv_cons_cons h
        intro q
        cases q with
        | nil => simp [metaAt, lookup]
        | cons x q' =>
          by_cases hxa : x = a
          · subst hxa
            rcases hbr with ⟨hch, hrec⟩ | ⟨hch, hrec⟩
            · simp [metaAt_dir_cons, lookupCh_setCh, hch, ih _ c' hrec q']
            · have h2 := ih _ c' hrec q'
              have h3 : metaAt c' q' = none := by
                rw [h2]
                cases q' with
                | nil => simp [metaAt, lookup]
                | cons y q'' => simp [metaAt_dir_cons, lookupCh]
              simp [metaAt_dir_cons, lookupCh_setCh, hch, h3]
          · simp [metaAt_dir_cons, lookupCh_setCh, hxa]

lemma mkdirsGo_isdir_mono : ∀ (p : FPath) (fs fs' : FSNode),
    mkdirsGo fs p = some fs' →
    ∀ q, isdir fs q = true → isdir fs' q = true := by
  intro p
  induction p with
  | nil => intro fs fs' h; simp [mkdirsGo] at h
  | cons a p' ih =>
    intro fs fs' h
    cases fs with
    | file mf => simp [mkdirsGo] at h
    | dir cs =>
      cases p' with
      | nil =>
        obtain ⟨hch, rfl⟩ := mkdirsGo_inv_single h
        intro q hq
        cases q with
        | nil => simp [isdir, lookup]
        | cons x q' =>
          by_cases hxa : x = a
          · subst hxa
            simp [isdir_dir_cons, hch] at hq
          · simp [isdir_dir_cons, lookupCh_setCh, hxa] at hq ⊢
            exact hq
      | cons b rest =>
        obtain ⟨c0, c', hbr, rfl⟩ := mkdirsGo_inv_cons_cons h
        intro q hq
        cases q with
        | nil => simp [isdir, lookup]
        | cons x q' =>
          by_cases hxa : x = a
          · subst hxa
            rcases hbr with ⟨hch, hrec⟩ | ⟨hch, hrec⟩
            · simp only [isdir_dir_cons, lookupCh_setCh, if_pos rfl, hch] at hq ⊢
              exact ih _ c' hrec q' hq
            · simp [isdir_dir_cons, hch] at hq
          · simp [isdir_dir_cons, lookupCh_setCh, hxa] at hq ⊢
            exact hq

lemma mkdirsGo_exists_mono : ∀ (p : FPath) (fs fs' : FSNode),
    mkdirsGo fs p = some fs' →
    ∀ q, pathExists fs q = true → pathExists fs' q = true := by
  intro p
  induction p with
  | nil => intro fs fs' h; simp [mkdirsGo] at h
  | cons a p' ih =>
    intro fs fs' h
    cases fs with
    | file mf => simp [mkdirsGo] at h
    | dir cs =>
      cases p' with
      | nil =>
        obtain ⟨hch, rfl⟩ := mkdirsGo_inv_single h
        intro q hq
        cases q with
        | nil => simp [pathExists, lookup]
        | cons x q' =>
          by_cases hxa : x = a
          · subst hxa
            simp [pathExists_dir_cons, hch] at hq
          · simp [pathExists_dir_cons, lookupCh_setCh, hxa] at hq ⊢
            exact hq
      | cons b rest =>
        obtain ⟨c0, c', hbr, rfl⟩ := mkdirsGo_inv_cons_cons h
        intro q hq
        cases q with
        | nil => simp [pathExists, lookup]
        | cons x q' =>
          by_cases hxa : x = a
          · subst hxa
            rcases hbr with ⟨hch, hrec⟩ | ⟨hch, hrec⟩
            · simp only [pathExists_dir_cons, lookupCh_setCh, if_pos rfl, hch] at hq ⊢
              exact ih _ c' hrec q' hq
            · simp [pathExists_dir_cons, hch] at hq
          · simp [pathExists_dir_cons, lookupCh_setCh, hxa] at hq ⊢
            exact hq

lemma mkdirsGo_exists_rev : ∀ (p : FPath) (fs fs' : FSNode),
    mkdirsGo fs p = some fs' →
    ∀ q, pathExists fs' q = true → pathExists fs q = true ∨ pre q p = true := by
  intro p
  induction p with
  | nil => intro fs fs' h; simp [mkdirsGo] at h
  | cons a p' ih =>
    intro fs fs' h
    cases fs with
    | file mf => simp [mkdirsGo] at h
    | dir cs =>
      cases p' with
      | nil =>
        obtain ⟨hch, rfl⟩ := mkdirsGo_inv_single h
        intro q hq
        cases q with
        | nil => left; simp [pathExists, lookup]
        | cons x q' =>
          by_cases hxa : x = a
          · subst hxa
            cases q' with
            | nil => right; simp [pre]
            | cons y q'' =>
              simp [pathExists_dir_cons, lookupCh_setCh, lookupCh] at hq
          · left
            simp [pathExists_dir_cons, lookupCh_setCh, hxa] at hq ⊢
            exact hq
      | cons b rest =>
        obtain ⟨c0, c', hbr, rfl⟩ := mkdirsGo_inv_cons_cons h
        intro q hq
        cases q with
        | nil => left; simp [pathExists, lookup]
        | cons x q' =>
          by_cases hxa : x = a
          · subst hxa
            simp only [pathExists_dir_cons, lookupCh_setCh, if_pos rfl] at hq
            rcases hbr with ⟨hch, hrec⟩ | ⟨hch, hrec⟩
            · rcases ih _ c' hrec q' hq with h1 | h1
              · left
                simp [pathExists_dir_cons, hch]
                exact h1
              · right
                rw [pre_cons_cons rfl]
                exact h1
            · rcases ih _ c' hrec q' hq with h1 | h1
              · cases q' with
                | nil =>
                  right
                  simp [pre]
                | cons y q'' => simp [pathExists_dir_cons, lookupCh] at h1
              · right
                rw [pre_cons_cons rfl]
                exact h1
          · left
            simp [pathExists_dir_cons, lookupCh_setCh, hxa] at hq ⊢
            exact hq

lemma isfile_metaAt (fs : FSNode) (q : FPath) :
    isfile fs q = (metaAt fs q).isSome := by
  unfold isfile metaAt
  rcases lookup fs q with _ | n
  · rfl
  · cases n <;> rfl

lemma copy2_ok_inv {env : Env} {fs : FSNode} {src dst : FPath} {fs' : FSNode}
    (h : copy2 env fs src dst = .ok fs') :
    ∃ m0, metaAt fs src = some m0 ∧ setFile fs dst m0 = some fs' := by
  unfold copy2 at h
  cases hcf : env.copyFails src dst with
  | true => rw [hcf] at h; simp at h
  | false =>
    rw [hcf] at h
    simp only [Bool.false_eq_true, if_false] at h
    rcases hm : metaAt fs src with _ | m0
    · rw [hm] at h; simp at h
    · rw [hm] at h
      simp only at h
      rcases hsf : setFile fs dst m0 with _ | fs2
      · rw [hsf] at h; simp at h
      · rw [hsf] at h
        simp at h
        rw [h] at hsf
        exact ⟨m0, rfl, hsf⟩

lemma backup_file_spec (env : Env) (total : Nat) (destF fp : FPath) (s : WState)
    (htot : total ≠ 0) :
    ∃ fs' msg,
      backup_file env total destF fp s =
        ({ fs := fs', processed := s.processed + 1,
           events := s.events ++
             [.progress msg ((s.processed + 1) * 100 / total)] }, none) ∧
      (fs' = s.fs ∨ ∃ m0, metaAt s.fs fp = some m0 ∧
        setFile s.fs (destFileTop destF fp) m0 = some fs') := by
  rcases hsf : is_same_file s.fs fp (destFileTop destF fp) with e | b
  · refine ⟨s.fs, .skippedError fp e, ?_, Or.inl rfl⟩
    simp [backup_file, hsf, update_progress, htot]
  · cases b with
    | true =>
      refine ⟨s.fs, .skippedNoChanges fp, ?_, Or.inl rfl⟩
      simp [backup_file, hsf, update_progress, htot]
    | false =>
      rcases hc : copy2 env s.fs fp (destFileTop destF fp) with e | fs2
      · refine ⟨s.fs, .skippedError fp e, ?_, Or.inl rfl⟩
        simp [backup_file, hsf, hc, update_progress, htot]
      · obtain ⟨m0, hm0, hset⟩ := copy2_ok_inv hc
        refine ⟨fs2, .copied fp (destFileTop destF fp), ?_, Or.inr ⟨m0, hm0, hset⟩⟩
        simp [backup_file, hsf, hc, update_progress, htot]

lemma runItems_all_files (env : Env) (total : Nat) (destF : FPath)
    (htot : total ≠ 0) :
    ∀ (items : List FPath) (s : WState), (∀ i ∈ items, isfile s.fs i = true) →
      (runItems env total destF items s).2 = none ∧
      (runItems env total destF items s).1.processed = s.processed + items.length := by
  intro items
  induction items with
  | nil => intro s h; exact ⟨rfl, by simp [runItems]⟩
  | cons i rest ih =>
    intro s h
    have hi : isfile s.fs i = true := h i (List.mem_cons_self i rest)
    obtain ⟨fs', msg, heq, hd⟩ := backup_file_spec env total destF i s htot
    simp only [runItems, hi, if_pos, heq]
    have h' : ∀ j ∈ rest,
        isfile (WState.mk fs' (s.processed + 1)
          (s.events ++ [.progress msg ((s.processed + 1) * 100 / total)])).fs j
          = true := by
      intro j hj
      have hj2 := h j (List.mem_cons_of_mem _ hj)
      rcases hd with rfl | ⟨m0, hm0, hset⟩
      · exact hj2
      · rw [isfile_metaAt] at hj2 ⊢
        simp only
        rw [setFile_metaAt _ _ _ _ hset j]
        split
        · simp
        · exact hj2
    obtain ⟨h1, h2⟩ := ih _ h'
    refine ⟨h1, ?_⟩
    rw [h2]
    simp only [List.length_cons]
    omega

lemma calc_all_files (fs0 : FSNode) (items : List FPath)
    (h : ∀ i ∈ items, isfile fs0 i = true) :
    calculate_total_files fs0 items = items.length := by
  have aux : ∀ (l : List FPath) (t : Nat), (∀ i ∈ l, isfile fs0 i = true) →
      l.foldl
        (fun t item =>
          if isfile fs0 item then t + 1
          else if isdir fs0 item then
            t + (walk fs0 item).foldl (fun a tr => a + tr.2.2.length) 0
          else t) t = t + l.length := by
    intro l
    induction l with
    | nil => intro t _; simp
    | cons i rest ih =>
      intro t hl
      have hi := hl i (List.mem_cons_self i rest)
      simp only [List.foldl_cons, hi, if_pos]
      rw [ih _ (fun j hj => hl j (List.mem_cons_of_mem _ hj))]
      simp only [List.length_cons]
      omega
  unfold calculate_total_files
  rw [aux items 0 h]
  omega

/-- C1 amended: the per-folder summary emission does increment
`processedUnits`, so for jobs containing directory items `processedUnits`
can exceed `totalUnits`; for a job whose items are all regular files (none
vanished), the run completes and `processedUnits` afterwards equals the
`totalUnits` computed by the pre-walk, under any environment of copy
failures (each file yields exactly one outcome). -/
theorem C1_theorem (env : Env) (destF : FPath) (fs0 : FSNode) (items : List FPath)
    (h : ∀ i ∈ items, isfile fs0 i = true) :
    (BackupWorker.run env items destF fs0).2 = none ∧
    (BackupWorker.run env items destF fs0).1.processed =
      calculate_total_files fs0 items := by
  have hc := calc_all_files fs0 items h
  cases items with
  | nil =>
    constructor <;> simp [BackupWorker.run, runItems, calculate_total_files]
  | cons i rest =>
    have htot : calculate_total_files fs0 (i :: rest) ≠ 0 := by
      rw [hc]; simp
    obtain ⟨h1, h2⟩ :=
      runItems_all_files env (calculate_total_files fs0 (i :: rest)) destF htot
        (i :: rest) ⟨fs0, 0, []⟩ h
    unfold BackupWorker.run
    dsimp only
    rcases hr : runItems env (calculate_total_files fs0 (i :: rest)) destF
        (i :: rest) ⟨fs0, 0, []⟩ with ⟨s, oe⟩
    rw [hr] at h1 h2
    cases oe with
    | some e => simp at h1
    | none =>
      refine ⟨rfl, ?_⟩
      show s.processed = calculate_total_files fs0 (i :: rest)
      simp only at h2
      rw [h2, hc]
      omega

theorem C1_witness :
    (∀ i ∈ [["a", "f1"], ["a", "f3"]], isfile fsBadCopy i = true) ∧
    (BackupWorker.run noFail [["a", "f1"], ["a", "f3"]] ["dst"] fsBadCopy).2 = none ∧
    (BackupWorker.run noFail [["a", "f1"], ["a", "f3"]] ["dst"] fsBadCopy).1.processed =
      calculate_total_files fsBadCopy [["a", "f1"], ["a", "f3"]] :=
  ⟨by decide, C1_theorem noFail ["dst"] fsBadCopy [["a", "f1"], ["a", "f3"]] (by decide)⟩

/-- C1 is refuted on the code: the job whose single item is the directory
`src` holding one file has `totalUnits = 1`, the run completes normally,
yet `processedUnits` finishes at `2` — the per-folder summary emission at
line 109 goes through `update_progress` and increments the counter, so
`processedUnits` exceeds `totalUnits`. -/
theorem C1_counterexample :
    calculate_total_files fsOneFolder [["src"]] = 1 ∧
    (BackupWorker.run noFail [["src"]] ["dst"] fsOneFolder).2 = none ∧
    (BackupWorker.run noFail [["src"]] ["dst"] fsOneFolder).1.processed = 2 :=
  ⟨rfl, rfl, rfl⟩

/-- C2 fails on the code as written: a job whose computed `totalUnits` is
`0` (one existing but empty directory) drives `update_progress` into a
division by zero at line 48 when the folder summary is emitted; the
exception escapes `run`, so no `completed` signal and no terminal
percentage are ever emitted. -/
theorem C2_zero_units_crash :
    calculate_total_files fsEmptyDir [["src"]] = 0 ∧
    (BackupWorker.run noFail [["src"]] ["dst"] fsEmptyDir).2 = some .zeroDivision ∧
    (BackupWorker.run noFail [["src"]] ["dst"] fsEmptyDir).1.events = [] :=
  ⟨rfl, rfl, rfl⟩

/-- C3 fails on the code as written: with two empty directory items
(`totalUnits = 0`), the `ZeroDivisionError` raised while emitting the
first folder's summary (and re-raised in the `except` handler) terminates
the run before the second item is processed and before any
`CompletionEvent` is emitted. -/
theorem C3_error_kills_run :
    (BackupWorker.run noFail [["s1"], ["s2"]] ["dst"] fsTwoEmptyDirs).2 =
      some .zeroDivision ∧
    Event.completed ∉
      (BackupWorker.run noFail [["s1"], ["s2"]] ["dst"] fsTwoEmptyDirs).1.events :=
  ⟨rfl, by decide⟩

/-- C5 is refuted on the code: for an item that exists neither as a file
nor as a directory, `run` (lines 29-33) has no `else` branch, so the item
is silently dropped — the run completes with no `Failed` outcome (indeed
no progress event at all) for the vanished item. -/
theorem C5_counterexample :
    pathExists fsNoGhost ["ghost"] = false ∧
    (BackupWorker.run noFail [["ghost"]] ["dst"] fsNoGhost).2 = none ∧
    (BackupWorker.run noFail [["ghost"]] ["dst"] fsNoGhost).1.events = [.completed] :=
  ⟨rfl, rfl, rfl⟩

/-- C5 amended: an item that is neither an existing regular file nor an
existing directory at processing time is silently skipped — no outcome
event is emitted for it, `processedUnits` is untouched, and processing
continues with the remaining items exactly as if the item were absent. -/
theorem C5_theorem (env : Env) (total : Nat) (destF item : FPath)
    (rest : List FPath) (s : WState)
    (h1 : isfile s.fs item = false) (h2 : isdir s.fs item = false) :
    runItems env total destF (item :: rest) s = runItems env total destF rest s := by
  simp [runItems, h1, h2]

theorem C5_witness :
    isfile fsNoGhost ["ghost"] = false ∧ isdir fsNoGhost ["ghost"] = false ∧
    runItems noFail 0 ["dst"] [["ghost"]] ⟨fsNoGhost, 0, []⟩ =
      runItems noFail 0 ["dst"] [] ⟨fsNoGhost, 0, []⟩ :=
  ⟨rfl, rfl, C5_theorem noFail 0 ["dst"] ["ghost"] [] ⟨fsNoGhost, 0, []⟩ rfl rfl⟩

/-- C8 is refuted on the code: two top-level file items with the same
basename map to the same destination, so each run re-copies both files
(the mirror holds the other file's metadata when each is examined) — the
second run with no source modification reports `Copied` twice and
`Skipped` never. -/
theorem C8_counterexample :
    runCollide1.2 = none ∧
    runCollide2.2 = none ∧
    runCollide2.1.events =
      [.progress (.copied ["d1", "b"] ["dst", "b"]) 50,
       .progress (.copied ["d2", "b"] ["dst", "b"]) 100, .completed] ∧
    runCollide2.1.events.countP isSkipEvent = 0 :=
  ⟨rfl, rfl, rfl, rfl⟩

/-- C9 is refuted on the code: the `os.makedirs` at lines 90-91 sits
inside the walk loop but outside the inner per-file `try`, so when
creating `dst/src/bad` fails the exception aborts the whole `src` item:
the file `bad/x` is not individually reported, and `good/y` — a file in a
different subtree of the same item — is never processed (its mirror does
not exist afterwards).  Only one folder-level failure event is emitted,
and processing continues with the next top-level item `z`. -/
theorem C9_counterexample :
    runBadDir.2 = none ∧
    runBadDir.1.events =
      [.progress (.skippedFolder ["src"] .mkdirError) 33,
       .progress (.copied ["z"] ["dst", "z"]) 66, .completed] ∧
    isfile fsBadGood ["src", "good", "y"] = true ∧
    metaAt runBadDir.1.fs ["dst", "src", "good", "y"] = none :=
  ⟨rfl, rfl, rfl, rfl⟩

lemma pathExists_of_metaAt (fs : FSNode) (p : FPath) (m : FileMeta)
    (h : metaAt fs p = some m) : pathExists fs p = true := by
  unfold metaAt at h
  unfold pathExists
  cases hl : lookup fs p with
  | none => rw [hl] at h; simp at h
  | some n => simp

/-- C6: the change detector as the engine uses it (`not is_same_file`,
lines 54/93 over lines 65-68): a missing destination always requires a
copy; for an existing destination file the copy is declined exactly when
the last-modification timestamps and the byte sizes both agree exactly,
and disturbing either of the two makes the copy required again.  The
query is a pure function of the filesystem (it returns only a Boolean and
is given no way to produce a new filesystem). -/
theorem C6_theorem :
    (∀ fs src dst, pathExists fs dst = false → needsCopy fs src dst = .ok true) ∧
    (∀ fs src dst ms md, metaAt fs src = some ms → metaAt fs dst = some md →
      (needsCopy fs src dst = .ok false ↔ ms.mtime = md.mtime ∧ ms.size = md.size)) ∧
    (∀ fs src dst ms md, metaAt fs src = some ms → metaAt fs dst = some md →
      ms.mtime ≠ md.mtime ∨ ms.size ≠ md.size → needsCopy fs src dst = .ok true) := by
  refine ⟨?_, ?_, ?_⟩
  · intro fs src dst h
    simp [needsCopy, is_same_file, h]
  · intro fs src dst ms md hms hmd
    have hex := pathExists_of_metaAt fs dst md hmd
    by_cases hm : ms.mtime = md.mtime
    · by_cases hs : ms.size = md.size
      · simp [needsCopy, is_same_file, hex, hms, hmd, hm, hs]
      · simp [needsCopy, is_same_file, hex, hms, hmd, hm, hs]
    · simp [needsCopy, is_same_file, hex, hms, hmd, hm]
  · intro fs src dst ms md hms hmd hne
    have hex := pathExists_of_metaAt fs dst md hmd
    rcases hne with hm | hs
    · simp [needsCopy, is_same_file, hex, hms, hmd, hm]
    · by_cases hm : ms.mtime = md.mtime
      · simp [needsCopy, is_same_file, hex, hms, hmd, hm, hs]
      · simp [needsCopy, is_same_file, hex, hms, hmd, hm]

theorem C6_witness :
    pathExists fsCollide ["nowhere"] = false ∧
    needsCopy fsCollide ["d1", "b"] ["nowhere"] = .ok true ∧
    metaAt fsCollide ["d1", "b"] = some mA ∧
    metaAt fsCollide ["d2", "b"] = some mB ∧
    needsCopy fsCollide ["d1", "b"] ["d2", "b"] = .ok true :=
  ⟨rfl, C6_theorem.1 fsCollide ["d1", "b"] ["nowhere"] rfl, rfl, rfl,
   C6_theorem.2.2 fsCollide ["d1", "b"] ["d2", "b"] mA mB rfl rfl
     (Or.inl (by decide))⟩

/-- C7: destination mapping preserves structure.  A top-level file goes to
`destinationRoot ++ [basename source]` (line 52); a file at relative path
`rel ++ [f]` under a directory item goes to the mirrored directory's same
relative path (line 87, where `os.path.relpath` cancels against the join).
Concretely, backing up the directory `source` containing `a/b/c.txt`
places the file at `dst/source/a/b/c.txt` with the source's metadata, and
backing up the file itself places it at `dst/c.txt`. -/
theorem C7_theorem :
    (∀ destF fp, destFileTop destF fp = destF ++ [basename fp]) ∧
    (∀ dpath folder rel f,
      destFileIn dpath folder (folder ++ rel) f = dpath ++ rel ++ [f]) ∧
    (runDeep.2 = none ∧
     isdir runDeep.1.fs ["dst", "source"] = true ∧
     metaAt runDeep.1.fs ["dst", "source", "a", "b", "c.txt"] =
       metaAt fsDeep ["source", "a", "b", "c.txt"]) ∧
    (runDeepTop.2 = none ∧
     metaAt runDeepTop.1.fs ["dst", "c.txt"] =
       metaAt fsDeep ["source", "a", "b", "c.txt"]) := by
  refine ⟨fun _ _ => rfl, ?_, ⟨rfl, rfl, rfl⟩, rfl, rfl⟩
  intro dpath folder rel f
  simp [destFileIn, relpath, List.drop_left]

/-- C10: any two top-level file items with equal basenames map to the same
destination path (line 52), so the later item's copy lands on top of the
earlier item's mirror.  Concretely, after running `[d1/b, d2/b]` against
an empty `dst`, the single `dst/b` holds `d2/b`'s metadata, the events
are two plain `Copied` emissions, and nothing in the event stream flags
the collision. -/
theorem C10_theorem :
    (∀ destF p q, basename p = basename q →
      destFileTop destF p = destFileTop destF q) ∧
    (runCollide1.2 = none ∧
     metaAt fsCollide ["d1", "b"] = some mA ∧
     metaAt fsCollide ["d2", "b"] = some mB ∧
     mA ≠ mB ∧
     metaAt runCollide1.1.fs ["dst", "b"] = some mB ∧
     runCollide1.1.events =
       [.progress (.copied ["d1", "b"] ["dst", "b"]) 50,
        .progress (.copied ["d2", "b"] ["dst", "b"]) 100, .completed]) := by
  refine ⟨?_, rfl, rfl, rfl, by decide, rfl, rfl⟩
  intro destF p q h
  simp [destFileTop, h]

theorem C10_witness :
    basename ["d1", "b"] = basename ["d2", "b"] ∧
    destFileTop ["dst"] ["d1", "b"] = destFileTop ["dst"] ["d2", "b"] :=
  ⟨rfl, C10_theorem.1 ["dst"] ["d1", "b"] ["d2", "b"] rfl⟩

/-- C4: a file whose copy raises a filesystem error yields exactly one
failure outcome for that file — the `except` branch of `backup_file`
(lines 61-63), whose message shape is distinct from the unchanged-file
`Skipped (No changes)` shape — increments `processedUnits` by exactly one,
and does not abort the run (no exception escapes).  Concretely, the job
with one uncopyable path between two good ones completes with exactly one
failure outcome, three processed units, and a final `completed` signal. -/
theorem C4_theorem :
    (∀ env total destF fp s, total ≠ 0 →
      is_same_file s.fs fp (destFileTop destF fp) = .ok false →
      env.copyFails fp (destFileTop destF fp) = true →
      backup_file env total destF fp s =
        ({ fs := s.fs, processed := s.processed + 1,
           events := s.events ++ [.progress (.skippedError fp .copyError)
             ((s.processed + 1) * 100 / total)] }, none)) ∧
    (∀ p e q, Msg.skippedError p e ≠ Msg.skippedNoChanges q) ∧
    (runBadCopy.2 = none ∧
     runBadCopy.1.events =
       [.progress (.copied ["a", "f1"] ["dst", "f1"]) 33,
        .progress (.skippedError ["a", "f2"] .copyError) 66,
        .progress (.copied ["a", "f3"] ["dst", "f3"]) 100, .completed] ∧
     runBadCopy.1.processed = 3 ∧
     runBadCopy.1.events.countP isFailureEvent = 1) := by
  refine ⟨?_, ?_, rfl, rfl, rfl, rfl⟩
  · intro env total destF fp s htot hsame hcf
    simp [backup_file, hsame, copy2, hcf, update_progress, htot]
  · intro p e q h
    cases h

theorem C4_witness :
    is_same_file fsBadCopy ["a", "f2"] (destFileTop ["dst"] ["a", "f2"]) = .ok false ∧
    envBadCopy.copyFails ["a", "f2"] (destFileTop ["dst"] ["a", "f2"]) = true ∧
    backup_file envBadCopy 3 ["dst"] ["a", "f2"] ⟨fsBadCopy, 0, []⟩ =
      ({ fs := fsBadCopy, processed := 1,
         events := [.progress (.skippedError ["a", "f2"] .copyError) 33] }, none) :=
  ⟨rfl, rfl, C4_theorem.1 envBadCopy 3 ["dst"] ["a", "f2"] ⟨fsBadCopy, 0, []⟩
    (by decide) rfl rfl⟩

/-- C9 amended: a directory-creation failure during the walk of a
directory item aborts the entire item, not just the affected subtree: the
walk loop stops at the failing file (no later triple of the same item is
processed and the dropped files are not individually reported), the
exception is caught by the item-level handler which emits one folder-level
failure outcome, and — because `backup_folder` never lets an exception
escape when `totalUnits ≠ 0` — processing continues with the following
top-level items. -/
theorem C9_theorem :
    (∀ env total dp fp root dirs files rest s nf nc ns acc e,
      filesLoop env total dp fp root files s nf nc ns = (acc, some e) →
      folderLoop env total dp fp ((root, dirs, files) :: rest) s nf nc ns =
        (acc, some e)) ∧
    (∀ env total destF folder s, total ≠ 0 →
      (backup_folder env total destF folder s).2 = none) ∧
    (runBadDir.2 = none ∧
     runBadDir.1.events.countP isFailureEvent = 1 ∧
     runBadDir.1.events =
       [.progress (.skippedFolder ["src"] .mkdirError) 33,
        .progress (.copied ["z"] ["dst", "z"]) 66, .completed]) := by
  refine ⟨?_, ?_, rfl, rfl, rfl⟩
  · intro env total dp fp root dirs files rest s nf nc ns acc e h
    simp [folderLoop, h]
  · intro env total destF folder s htot
    unfold backup_folder
    dsimp only
    split
    · rfl
    · simp [update_progress, htot]

theorem C9_witness :
    folderLoop envBadDir 3 ["dst", "src"] ["src"]
        [(["src", "bad"], [], ["x"]), (["src", "good"], [], ["y"])]
        ⟨fsBadGood, 0, []⟩ 0 0 0 =
      ((⟨fsBadGood, 0, []⟩, 1, 0, 0), some Err.mkdirError) ∧
    (backup_folder envBadDir 3 ["dst"] ["src"] ⟨fsBadGood, 0, []⟩).2 = none :=
  ⟨C9_theorem.1 envBadDir 3 ["dst", "src"] ["src"] ["src", "bad"] [] ["x"]
      [(["src", "good"], [], ["y"])] ⟨fsBadGood, 0, []⟩ 0 0 0 _ _ rfl,
   C9_theorem.2.1 envBadDir 3 ["dst"] ["src"] ⟨fsBadGood, 0, []⟩ (by decide)⟩

/-! ### Lemmas towards the two-run idempotence theorem (C8) -/

lemma lookup_single {cs : List (String × FSNode)} {a : String} :
    lookup (.dir cs) [a] = lookupCh cs a := by
  simp only [lookup]
  rcases lookupCh cs a with _ | c
  · rfl
  · rfl

lemma pre_of_append {q : FPath} : ∀ {a b : FPath}, pre q (a ++ b) = true →
    pre q a = true ∨ pre a q = true := by
  induction q with
  | nil => intro a b _; left; rfl
  | cons y q' ih =>
    intro a b h
    cases a with
    | nil => right; rfl
    | cons x a' =>
      have hxy : y = x := pre_head_eq h
      subst hxy
      rw [List.cons_append, pre_cons_cons rfl] at h
      rcases ih h with h1 | h1
      · left; rw [pre_cons_cons rfl]; exact h1
      · right; rw [pre_cons_cons rfl]; exact h1

lemma pre_append_of_pre {q a : FPath} (h : pre q a = true) (b : FPath) :
    pre q (a ++ b) = true := by
  obtain ⟨t, rfl⟩ := pre_iff.mp h
  exact pre_iff.mpr ⟨t ++ b, by simp⟩

lemma pre_snoc {q p : FPath} {f : String} (h : pre q (p ++ [f]) = true)
    (hne : q ≠ p ++ [f]) : pre q p = true := by
  obtain ⟨t, ht⟩ := pre_iff.mp h
  cases t with
  | nil => rw [List.append_nil] at ht; exact absurd ht.symm hne
  | cons u us =>
    apply pre_iff.mpr
    refine ⟨(u :: us).dropLast, ?_⟩
    have h2 : (p ++ [f]).dropLast = (q ++ u :: us).dropLast := by rw [ht]
    rw [List.dropLast_concat, List.dropLast_append_of_ne_nil _ (by simp)] at h2
    exact h2

lemma lookupCh_mem : ∀ {cs : List (String × FSNode)} {a : String} {c : FSNode},
    lookupCh cs a = some c → (a, c) ∈ cs := by
  intro cs
  induction cs with
  | nil => intro a c h; simp [lookupCh] at h
  | cons nc cs' ih =>
    intro a c h
    obtain ⟨n, c0⟩ := nc
    by_cases hna : n = a
    · subst hna
      simp [lookupCh] at h
      simp [h]
    · simp [lookupCh, hna] at h
      simp [ih h]

lemma lookup_pre_dir {fs : FSNode} {p : FPath} {n : FSNode}
    (h : lookup fs p = some n) {q : FPath} (hq : pre q p = true) (hne : q ≠ p) :
    ∃ cs, lookup fs q = some (.dir cs) := by
  obtain ⟨t, rfl⟩ := pre_iff.mp hq
  cases t with
  | nil => simp at hne
  | cons u us =>
    rw [lookup_append] at h
    rcases hl : lookup fs q with _ | nq
    · rw [hl] at h; simp at h
    · rw [hl] at h
      simp only [Option.some_bind] at h
      cases nq with
      | file m => simp [lookup] at h
      | dir cs => exact ⟨cs, rfl⟩

lemma metaAt_append_file {fs : FSNode} {p : FPath} {m : FileMeta}
    (h : metaAt fs p = some m) {x : String} (u : FPath) :
    lookup fs (p ++ x :: u) = none := by
  unfold metaAt at h
  rcases hl : lookup fs p with _ | n
  · rw [hl] at h; simp at h
  · rw [hl] at h
    cases n with
    | dir cs => simp at h
    | file m0 =>
      rw [lookup_append, hl]
      simp [lookup]

lemma walk_congr {fs1 fs0 : FSNode} {p : FPath}
    (h : lookup fs1 p = lookup fs0 p) : walk fs1 p = walk fs0 p := by
  unfold walk
  rw [h]

lemma isdir_lookup {fs : FSNode} {p : FPath} (h : isdir fs p = true) :
    ∃ cs, lookup fs p = some (.dir cs) := by
  unfold isdir at h
  rcases hl : lookup fs p with _ | n
  · rw [hl] at h; simp at h
  · rw [hl] at h
    cases n with
    | file m => simp at h
    | dir cs => exact ⟨cs, rfl⟩

lemma pathExists_lookup {fs : FSNode} {p : FPath} (h : pathExists fs p = true) :
    ∃ n, lookup fs p = some n := by
  unfold pathExists at h
  rcases hl : lookup fs p with _ | n
  · rw [hl] at h; simp at h
  · exact ⟨n, rfl⟩

lemma mkdirsGo_succeeds : ∀ (p : FPath) (fs : FSNode), p ≠ [] →
    (∀ q, pre q p = true → q ≠ p → pathExists fs q = false ∨ isdir fs q = true) →
    pathExists fs p = false →
    ∃ fs', mkdirsGo fs p = some fs' := by
  intro p
  induction p with
  | nil => intro fs h; exact absurd rfl h
  | cons a p' ih =>
    intro fs _ hq hfin
    have hroot : isdir fs [] = true := by
      rcases hq [] rfl (by simp) with h1 | h1
      · simp [pathExists, lookup] at h1
      · exact h1
    obtain ⟨cs, hcs⟩ := isdir_lookup hroot
    have hfs : fs = .dir cs := by
      simpa [lookup] using hcs
    subst hfs
    cases p' with
    | nil =>
      have : lookupCh cs a = none := by
        rcases hl : lookupCh cs a with _ | c
        · rfl
        · exfalso
          simp [pathExists, lookup, hl] at hfin
      exact ⟨.dir (setCh cs a (.dir [])), by simp [mkdirsGo, this]⟩
    | cons b rest =>
      rcases hl : lookupCh cs a with _ | c
      · obtain ⟨c', hc'⟩ := ih (.dir []) (by simp)
          (fun q hq' hne => by
            cases q with
            | nil => right; simp [isdir, lookup]
            | cons y ys => left; simp [pathExists, lookup, lookupCh])
          (by simp [pathExists, lookup, lookupCh])
        exact ⟨.dir (setCh cs a c'), by simp [mkdirsGo, hl, hc']⟩
      · obtain ⟨c', hc'⟩ := ih c (by simp)
          (fun q hq' hne => by
            have := hq (a :: q) (by rw [pre_cons_cons rfl]; exact hq') (by simp [hne])
            simpa [pathExists_dir_cons, isdir_dir_cons, hl] using this)
          (by
            have := hfin
            simpa [pathExists_dir_cons, hl] using this)
        exact ⟨.dir (setCh cs a c'), by simp [mkdirsGo, hl, hc']⟩

lemma setFile_succeeds : ∀ (p : FPath) (fs : FSNode) (m : FileMeta), p ≠ [] →
    (∀ q, pre q p = true → q ≠ p → isdir fs q = true) →
    isdir fs p = false →
    ∃ fs', setFile fs p m = some fs' := by
  intro p
  induction p with
  | nil => intro fs m h; exact absurd rfl h
  | cons a p' ih =>
    intro fs m _ hq hfin
    obtain ⟨cs, hcs⟩ := isdir_lookup (hq [] rfl (by simp))
    have hfs : fs = .dir cs := by simpa [lookup] using hcs
    subst hfs
    cases p' with
    | nil =>
      rcases hl : lookupCh cs a with _ | c
      · exact ⟨.dir (setCh cs a (.file m)), by simp [setFile, hl]⟩
      · cases c with
        | dir cs2 =>
          exfalso
          simp [isdir_dir_cons, hl, isdir, lookup] at hfin
        | file m0 => exact ⟨.dir (setCh cs a (.file m)), by simp [setFile, hl]⟩
    | cons b rest =>
      have hadir : isdir (FSNode.dir cs) [a] = true := by
        apply hq [a]
        · simp [pre]
        · simp
      obtain ⟨csa, hcsa⟩ := isdir_lookup hadir
      have hl : lookupCh cs a = some (.dir csa) := by
        rw [← lookup_single]; exact hcsa
      obtain ⟨c', hc'⟩ := ih (.dir csa) m (by simp)
        (fun q hq' hne => by
          have := hq (a :: q) (by rw [pre_cons_cons rfl]; exact hq') (by simp [hne])
          simpa [isdir_dir_cons, hl] using this)
        (by
          have := hfin
          simpa [isdir_dir_cons, hl] using this)
      exact ⟨.dir (setCh cs a c'), by simp [setFile, hl, hc']⟩

lemma wfNode_dir {cs : List (String × FSNode)} (h : wfNode (.dir cs) = true) :
    nodupKeys (cs.map Prod.fst) = true ∧ wfChildren cs = true := by
  rw [wfNode] at h
  exact Bool.and_eq_true_iff.mp h

lemma wfChildren_mem : ∀ {cs : List (String × FSNode)},
    wfChildren cs = true → ∀ {nc : String × FSNode}, nc ∈ cs → wfNode nc.2 = true := by
  intro cs
  induction cs with
  | nil => intro _ nc h; simp at h
  | cons nc0 cs' ih =>
    intro h nc hm
    obtain ⟨n0, c0⟩ := nc0
    rw [wfChildren] at h
    obtain ⟨h1, h2⟩ := Bool.and_eq_true_iff.mp h
    rcases List.mem_cons.mp hm with heq | hm'
    · subst heq; exact h1
    · exact ih h2 hm'

lemma nodupKeys_lookupCh : ∀ {cs : List (String × FSNode)},
    nodupKeys (cs.map Prod.fst) = true →
    ∀ {n : String} {c : FSNode}, (n, c) ∈ cs → lookupCh cs n = some c := by
  intro cs
  induction cs with
  | nil => intro _ n c h; simp at h
  | cons nc0 cs' ih =>
    intro h n c hm
    obtain ⟨n0, c0⟩ := nc0
    rw [List.map_cons, nodupKeys] at h
    obtain ⟨h1, h2⟩ := Bool.and_eq_true_iff.mp h
    rw [decide_eq_true_eq] at h1
    rcases List.mem_cons.mp hm with heq | hm'
    · injection heq with e1 e2
      subst e1; subst e2
      simp [lookupCh]
    · by_cases hn : n0 = n
      · subst hn
        exact absurd (List.mem_map_of_mem Prod.fst hm') h1
      · simp only [lookupCh, if_neg hn]
        exact ih h2 hm'

lemma wfNode_lookup : ∀ (p : FPath) (fs n : FSNode),
    wfNode fs = true → lookup fs p = some n → wfNode n = true := by
  intro p
  induction p with
  | nil =>
    intro fs n hwf h
    simp [lookup] at h
    rw [← h]; exact hwf
  | cons a p' ih =>
    intro fs n hwf h
    cases fs with
    | file mf => simp [lookup] at h
    | dir cs =>
      simp only [lookup] at h
      rcases hch : lookupCh cs a with _ | c
      · rw [hch] at h; simp at h
      · rw [hch] at h
        have hc : wfNode c = true :=
          wfChildren_mem (wfNode_dir hwf).2 (lookupCh_mem hch)
        exact ih c n hc h

lemma mem_walkChildren {root : FPath} : ∀ {cs : List (String × FSNode)}
    {tr : WalkTriple}, tr ∈ walkChildren root cs →
    ∃ nm c, (nm, c) ∈ cs ∧ tr ∈ walkNode (root ++ [nm]) c := by
  intro cs
  induction cs with
  | nil => intro tr h; simp [walkChildren] at h
  | cons nc cs' ih =>
    intro tr h
    obtain ⟨nm0, c0⟩ := nc
    rw [walkChildren.eq_def] at h
    simp only [List.mem_append] at h
    rcases h with h1 | h2
    · cases c0 with
      | file m => simp at h1
      | dir cs0 => exact ⟨nm0, .dir cs0, by simp, h1⟩
    · obtain ⟨nm, c, hm, hw⟩ := ih h2
      exact ⟨nm, c, by simp [hm], hw⟩

lemma fsnode_mem_sizeOf {nm : String} {c : FSNode} {cs : List (String × FSNode)}
    (h : (nm, c) ∈ cs) : sizeOf c < sizeOf (FSNode.dir cs) := by
  have h1 := List.sizeOf_lt_of_mem h
  have h2 : sizeOf (nm, c) = 1 + sizeOf nm + sizeOf c := by simp
  have h3 : sizeOf (FSNode.dir cs) = 1 + sizeOf cs := by
    simp [FSNode.dir.sizeOf_spec]
  omega

lemma walkNode_facts (fs : FSNode) : ∀ (k : Nat) (n : FSNode) (root : FPath),
    sizeOf n ≤ k → lookup fs root = some n → wfNode n = true →
    ∀ tr ∈ walkNode root n,
      (∃ t, tr.1 = root ++ t) ∧
      ∃ cs, lookup fs tr.1 = some (.dir cs) ∧ wfNode (.dir cs) = true ∧
        tr.2.2 = fileNames cs := by
  intro k
  induction k with
  | zero =>
    intro n root hs
    exfalso
    cases n <;> simp_arith at hs
  | succ k ih =>
    intro n root hs hl hwf tr htr
    cases n with
    | file m => simp [walkNode] at htr
    | dir cs =>
      rw [walkNode] at htr
      rcases List.mem_cons.mp htr with rfl | htr'
      · exact ⟨⟨[], by simp⟩, cs, by simpa using hl, hwf, rfl⟩
      · obtain ⟨nm, c, hmem, hc⟩ := mem_walkChildren htr'
        have hlc : lookup fs (root ++ [nm]) = some c := by
          rw [lookup_append, hl, Option.some_bind, lookup_single]
          exact nodupKeys_lookupCh (wfNode_dir hwf).1 hmem
        have hwfc : wfNode c = true := wfChildren_mem (wfNode_dir hwf).2 hmem
        have hsz : sizeOf c ≤ k := by
          have := fsnode_mem_sizeOf hmem
          omega
        obtain ⟨⟨t, ht⟩, cs2, h1, h2, h3⟩ := ih c (root ++ [nm]) hsz hlc hwfc tr hc
        exact ⟨⟨[nm] ++ t, by simp [ht]⟩, cs2, h1, h2, h3⟩

lemma fileNames_mem {cs : List (String × FSNode)}
    (h : nodupKeys (cs.map Prod.fst) = true) {f : String}
    (hf : f ∈ fileNames cs) : ∃ mf, lookupCh cs f = some (.file mf) := by
  unfold fileNames at hf
  obtain ⟨nc, hnc, hg⟩ := List.mem_filterMap.mp hf
  obtain ⟨n0, c0⟩ := nc
  cases c0 with
  | dir cs0 => simp at hg
  | file mf =>
    simp at hg
    subst hg
    exact ⟨mf, nodupKeys_lookupCh h hnc⟩

lemma pre_trans {a b c : FPath} (h1 : pre a b = true) (h2 : pre b c = true) :
    pre a c = true := by
  obtain ⟨t1, rfl⟩ := pre_iff.mp h1
  obtain ⟨t2, rfl⟩ := pre_iff.mp h2
  exact pre_iff.mpr ⟨t1 ++ t2, by simp⟩

lemma relpath_append (i t : FPath) : relpath (i ++ t) i = t := by
  simp [relpath, List.drop_left]

lemma incomp_below {q destF xu : FPath} (hq1 : pre q destF = false)
    (hq2 : pre destF q = false) (hxu : xu ≠ []) :
    pre q (destF ++ xu) = false := by
  by_contra hc
  rw [Bool.not_eq_false] at hc
  rcases pre_of_append hc with h | h
  · rw [h] at hq1; cases hq1
  · rw [h] at hq2; cases hq2

lemma dest_pre {destF u v : FPath} {x y : String}
    (hx : pre (destF ++ [x] ++ u) (destF ++ [y] ++ v) = true) :
    x = y ∧ pre u v = true := by
  rw [List.append_assoc, List.append_assoc, pre_append_cancel,
    List.singleton_append, List.singleton_append] at hx
  exact ⟨pre_head_eq hx, by rwa [pre_cons_cons (pre_head_eq hx)] at hx⟩

lemma pairsOfItem_struct {fs0 : FSNode} {destF i : FPath}
    (hwf : wfNode fs0 = true) :
    ∀ pr ∈ pairsOfItem fs0 destF i,
      ∃ suffix m, pr.1 = i ++ suffix ∧
        pr.2 = destF ++ [basename i] ++ suffix ∧
        metaAt fs0 pr.1 = some m := by
  intro pr hpr
  unfold pairsOfItem at hpr
  by_cases hf : isfile fs0 i = true
  · rw [if_pos hf] at hpr
    simp at hpr
    subst hpr
    rw [isfile_metaAt] at hf
    obtain ⟨m, hm⟩ := Option.isSome_iff_exists.mp hf
    exact ⟨[], m, by simp, by simp [destFileTop], hm⟩
  · rw [if_neg hf] at hpr
    by_cases hd : isdir fs0 i = true
    · rw [if_pos hd] at hpr
      obtain ⟨tr, htr, hmap⟩ := List.mem_flatMap.mp hpr
      obtain ⟨f, hfmem, heq⟩ := List.mem_map.mp hmap
      obtain ⟨cs0, hcs0⟩ := isdir_lookup hd
      have hwfi := wfNode_lookup i fs0 _ hwf hcs0
      have hwalk : walk fs0 i = walkNode i (.dir cs0) := by
        unfold walk; rw [hcs0]
      rw [hwalk] at htr
      obtain ⟨⟨t, ht⟩, cs2, h1, h2, h3⟩ :=
        walkNode_facts fs0 (sizeOf (FSNode.dir cs0)) _ i le_rfl hcs0 hwfi tr htr
      rw [h3] at hfmem
      obtain ⟨mf, hmf⟩ := fileNames_mem (wfNode_dir h2).1 hfmem
      have hsrc : metaAt fs0 (tr.1 ++ [f]) = some mf := by
        unfold metaAt
        rw [lookup_append, h1, Option.some_bind, lookup_single, hmf]
      subst heq
      refine ⟨t ++ [f], mf, ?_, ?_, hsrc⟩
      · simp [ht]
      · simp only [destFileIn, ht, relpath_append]
        simp
    · rw [if_neg hd] at hpr; simp at hpr

lemma dirsOfItem_struct {fs0 : FSNode} {destF i : FPath}
    (hwf : wfNode fs0 = true) :
    ∀ d ∈ dirsOfItem fs0 destF i,
      ∃ rel cs2, d = destF ++ [basename i] ++ rel ∧
        lookup fs0 (i ++ rel) = some (.dir cs2) := by
  intro d hd
  unfold dirsOfItem at hd
  by_cases hdir : isdir fs0 i = true
  · rw [if_pos hdir] at hd
    obtain ⟨tr, htr, heq⟩ := List.mem_map.mp hd
    obtain ⟨cs0, hcs0⟩ := isdir_lookup hdir
    have hwfi := wfNode_lookup i fs0 _ hwf hcs0
    have hwalk : walk fs0 i = walkNode i (.dir cs0) := by
      unfold walk; rw [hcs0]
    rw [hwalk] at htr
    obtain ⟨⟨t, ht⟩, cs2, h1, h2, h3⟩ :=
      walkNode_facts fs0 (sizeOf (FSNode.dir cs0)) _ i le_rfl hcs0 hwfi tr htr
    subst heq
    refine ⟨t, cs2, ?_, by rw [← ht]; exact h1⟩
    rw [ht, relpath_append]
  · rw [if_neg hdir] at hd; simp at hd

lemma jobPairs_struct {fs0 : FSNode} {destF : FPath} {items : List FPath}
    (hwf : wfNode fs0 = true) :
    ∀ pr ∈ jobPairs fs0 destF items,
      ∃ i suffix m, i ∈ items ∧ pr.1 = i ++ suffix ∧
        pr.2 = destF ++ [basename i] ++ suffix ∧
        metaAt fs0 pr.1 = some m := by
  intro pr hpr
  obtain ⟨i, hi, hpi⟩ := List.mem_flatMap.mp hpr
  obtain ⟨suffix, m, h1, h2, h3⟩ := pairsOfItem_struct hwf pr hpi
  exact ⟨i, suffix, m, hi, h1, h2, h3⟩

lemma jobDirs_struct {fs0 : FSNode} {destF : FPath} {items : List FPath}
    (hwf : wfNode fs0 = true) :
    ∀ d ∈ jobDirs fs0 destF items,
      ∃ i rel cs2, i ∈ items ∧ d = destF ++ [basename i] ++ rel ∧
        lookup fs0 (i ++ rel) = some (.dir cs2) := by
  intro d hd
  obtain ⟨i, hi, hdi⟩ := List.mem_flatMap.mp hd
  obtain ⟨rel, cs2, h1, h2⟩ := dirsOfItem_struct hwf d hdi
  exact ⟨i, rel, cs2, hi, h1, h2⟩

lemma items_base_inj {items : List FPath}
    (hbase : items.Pairwise (fun a b => basename a ≠ basename b)) :
    ∀ i ∈ items, ∀ j ∈ items, basename i = basename j → i = j := by
  intro i hi j hj hb
  by_contra hne
  have hsym : Symmetric (fun a b : FPath => basename a ≠ basename b) :=
    fun a b h hb => h hb.symm
  exact (List.Pairwise.forall hsym hbase hi hj hne) hb

lemma jobPairs_dest_inj {fs0 : FSNode} {destF : FPath} {items : List FPath}
    (hwf : wfNode fs0 = true)
    (hbase : items.Pairwise (fun a b => basename a ≠ basename b)) :
    ∀ pr ∈ jobPairs fs0 destF items, ∀ pr' ∈ jobPairs fs0 destF items,
      pr.2 = pr'.2 → pr.1 = pr'.1 := by
  intro pr hpr pr' hpr' heq
  obtain ⟨i, suf, m, hi, e1, e2, _⟩ := jobPairs_struct hwf pr hpr
  obtain ⟨j, suf', m', hj, f1, f2, _⟩ := jobPairs_struct hwf pr' hpr'
  rw [e2, f2] at heq
  rw [List.append_assoc, List.append_assoc] at heq
  have heq2 := List.append_cancel_left heq
  simp only [List.singleton_append, List.cons.injEq] at heq2
  have hij : i = j := items_base_inj hbase i hi j hj heq2.1
  subst hij
  rw [e1, f1, heq2.2]

lemma jobPairs_no_proper_pre {fs0 : FSNode} {destF : FPath} {items : List FPath}
    (hwf : wfNode fs0 = true)
    (hbase : items.Pairwise (fun a b => basename a ≠ basename b)) :
    ∀ pr ∈ jobPairs fs0 destF items, ∀ pr' ∈ jobPairs fs0 destF items,
      pre pr.2 pr'.2 = true → pr.2 = pr'.2 := by
  intro pr hpr pr' hpr' hp
  obtain ⟨i, suf, m, hi, e1, e2, hm⟩ := jobPairs_struct hwf pr hpr
  obtain ⟨j, suf', m', hj, f1, f2, hm'⟩ := jobPairs_struct hwf pr' hpr'
  rw [e2, f2] at hp
  obtain ⟨hb, hps⟩ := dest_pre hp
  have hij : i = j := items_base_inj hbase _ hi _ hj hb
  subst hij
  obtain ⟨t, rfl⟩ := pre_iff.mp hps
  cases t with
  | nil => rw [e2, f2]; simp
  | cons x u =>
    exfalso
    have h0 : lookup fs0 (pr.1 ++ (x :: u)) = none := metaAt_append_file hm u
    have hp1 : pr'.1 = pr.1 ++ (x :: u) := by rw [f1, e1]; simp
    rw [hp1] at hm'
    unfold metaAt at hm'
    rw [h0] at hm'
    simp at hm'

lemma jobPairs_dirs_no_pre {fs0 : FSNode} {destF : FPath} {items : List FPath}
    (hwf : wfNode fs0 = true)
    (hbase : items.Pairwise (fun a b => basename a ≠ basename b)) :
    ∀ pr ∈ jobPairs fs0 destF items, ∀ d ∈ jobDirs fs0 destF items,
      pre pr.2 d = false := by
  intro pr hpr d hd
  by_contra hc
  rw [Bool.not_eq_false] at hc
  obtain ⟨i, suf, m, hi, e1, e2, hm⟩ := jobPairs_struct hwf pr hpr
  obtain ⟨j, rel, cs2, hj, f1, f2⟩ := jobDirs_struct hwf d hd
  rw [e2, f1] at hc
  obtain ⟨hb, hps⟩ := dest_pre hc
  have hij : i = j := items_base_inj hbase _ hi _ hj hb
  subst hij
  obtain ⟨t, rfl⟩ := pre_iff.mp hps
  cases t with
  | nil =>
    rw [List.append_nil] at f2
    rw [e1] at hm
    unfold metaAt at hm
    rw [f2] at hm
    simp at hm
  | cons x u =>
    have h0 : lookup fs0 (pr.1 ++ (x :: u)) = none := metaAt_append_file hm u
    have hre : i ++ (suf ++ x :: u) = pr.1 ++ (x :: u) := by rw [e1]; simp
    rw [hre, h0] at f2
    cases f2

lemma jobPairs_below {fs0 : FSNode} {destF : FPath} {items : List FPath}
    (hwf : wfNode fs0 = true) :
    ∀ pr ∈ jobPairs fs0 destF items,
      ∃ xu, xu ≠ [] ∧ pr.2 = destF ++ xu := by
  intro pr hpr
  obtain ⟨i, suf, m, hi, e1, e2, _⟩ := jobPairs_struct hwf pr hpr
  exact ⟨[basename i] ++ suf, by simp, by rw [e2]; simp⟩

lemma jobDirs_below {fs0 : FSNode} {destF : FPath} {items : List FPath}
    (hwf : wfNode fs0 = true) :
    ∀ d ∈ jobDirs fs0 destF items,
      ∃ xu, xu ≠ [] ∧ d = destF ++ xu := by
  intro d hd
  obtain ⟨i, rel, cs2, hi, f1, f2⟩ := jobDirs_struct hwf d hd
  exact ⟨[basename i] ++ rel, by simp, by rw [f1]; simp⟩

lemma jobPairs_src_incomp {fs0 : FSNode} {destF : FPath} {items : List FPath}
    (hwf : wfNode fs0 = true)
    (hdisj : ∀ i ∈ items, pre i destF = false ∧ pre destF i = false) :
    ∀ pr ∈ jobPairs fs0 destF items,
      pre pr.1 destF = false ∧ pre destF pr.1 = false := by
  intro pr hpr
  obtain ⟨i, suf, m, hi, e1, e2, _⟩ := jobPairs_struct hwf pr hpr
  obtain ⟨hd1, hd2⟩ := hdisj i hi
  constructor
  · by_contra hc
    rw [Bool.not_eq_false] at hc
    rw [e1] at hc
    have hpi : pre i (i ++ suf) = true := pre_append_of_pre (pre_refl i) suf
    rw [pre_trans hpi hc] at hd1
    cases hd1
  · by_contra hc
    rw [Bool.not_eq_false] at hc
    rw [e1] at hc
    rcases pre_of_append hc with h | h
    · rw [h] at hd2; cases hd2
    · rw [h] at hd1; cases hd1

lemma is_same_file_of_meta {fs : FSNode} {sp dp : FPath} {m : FileMeta}
    (h1 : metaAt fs sp = some m) (h2 : metaAt fs dp = some m) :
    is_same_file fs sp dp = .ok true := by
  have hex : pathExists fs dp = true := pathExists_of_metaAt fs dp m h2
  simp [is_same_file, hex, h1, h2]

lemma is_same_file_of_fresh {fs : FSNode} {sp dp : FPath}
    (h : pathExists fs dp = false) : is_same_file fs sp dp = .ok false := by
  simp [is_same_file, h]

lemma inv_mkdirs {fs0 : FSNode} {destF : FPath} {items : List FPath}
    {fs fs' : FSNode} {d : FPath} {done todo : List (FPath × FPath)}
    (hctx : JobCtx fs0 destF items)
    (inv : RunInv fs0 destF fs done todo [])
    (htodo : ∀ pr ∈ todo, pr ∈ jobPairs fs0 destF items)
    (hd : d ∈ jobDirs fs0 destF items)
    (hmk : mkdirsGo fs d = some fs') :
    RunInv fs0 destF fs' done todo [] := by
  obtain ⟨xu, hxu, hdeq⟩ := jobDirs_below hctx.wf d hd
  constructor
  · intro q h1 h2
    rw [mkdirsGo_lookup_out d fs fs' hmk q (by rw [hdeq]; exact incomp_below h1 h2 hxu)]
    exact inv.src q h1 h2
  · intro p hp
    rw [mkdirsGo_metaAt d fs fs' hmk p.2]
    exact inv.mirrored p hp
  · intro p hp
    rcases inv.fresh p hp with h | h
    · left
      by_contra hc
      rw [Bool.not_eq_false] at hc
      rcases mkdirsGo_exists_rev d fs fs' hmk p.2 hc with h1 | h1
      · rw [h1] at h; cases h
      · rw [jobPairs_dirs_no_pre hctx.wf hctx.base p (htodo p hp) d hd] at h1
        cases h1
    · right
      rw [mkdirsGo_metaAt d fs fs' hmk p.2]
      exact h
  · intro q hq1 hq2 hq3
    rcases mkdirsGo_exists_rev d fs fs' hmk q hq3 with h1 | h1
    · rcases inv.shape q hq1 hq2 h1 with hdir | hdone'
      · left; exact mkdirsGo_isdir_mono d fs fs' hmk q hdir
      · right; exact hdone'
    · left; exact mkdirsGo_isdir_pre d fs fs' hmk q h1
  · intro d' hd'; simp at hd'
  · exact mkdirsGo_isdir_mono d fs fs' hmk destF inv.root

lemma inv_copy {fs0 : FSNode} {destF : FPath} {items : List FPath}
    {fs fs' : FSNode} {sp dp : FPath} {m : FileMeta}
    {done todo : List (FPath × FPath)}
    (hctx : JobCtx fs0 destF items)
    (inv : RunInv fs0 destF fs done ((sp, dp) :: todo) [])
    (hdone : ∀ pr ∈ done, pr ∈ jobPairs fs0 destF items)
    (htodo : ∀ pr ∈ (sp, dp) :: todo, pr ∈ jobPairs fs0 destF items)
    (hm : metaAt fs0 sp = some m)
    (hset : setFile fs dp m = some fs') :
    RunInv fs0 destF fs' (done ++ [(sp, dp)]) todo [] := by
  have hpair : (sp, dp) ∈ jobPairs fs0 destF items :=
    htodo _ (List.mem_cons_self _ _)
  obtain ⟨xu, hxu, hdeq⟩ := jobPairs_below hctx.wf _ hpair
  have hdeq' : dp = destF ++ xu := hdeq
  constructor
  · intro q h1 h2
    rw [setFile_lookup_out dp fs m fs' hset q
      (by rw [hdeq']; exact incomp_below h1 h2 hxu)]
    exact inv.src q h1 h2
  · intro p hp
    rw [setFile_metaAt dp fs m fs' hset p.2]
    rcases List.mem_append.mp hp with hp1 | hp2
    · by_cases hdp : p.2 = dp
      · rw [if_pos hdp]
        have hps : p.1 = sp :=
          jobPairs_dest_inj hctx.wf hctx.base p (hdone p hp1) (sp, dp) hpair hdp
        rw [hps, hm]
      · rw [if_neg hdp]
        exact inv.mirrored p hp1
    · simp at hp2
      subst hp2
      simp [hm]
  · intro p hp
    have hpj : p ∈ jobPairs fs0 destF items :=
      htodo p (List.mem_cons_of_mem _ hp)
    by_cases hdp : p.2 = dp
    · right
      rw [setFile_metaAt dp fs m fs' hset p.2, if_pos hdp]
      have hps : p.1 = sp :=
        jobPairs_dest_inj hctx.wf hctx.base p hpj (sp, dp) hpair hdp
      rw [hps, hm]
    · rcases inv.fresh p (List.mem_cons_of_mem _ hp) with h | h
      · left
        by_contra hc
        rw [Bool.not_eq_false] at hc
        rcases setFile_exists_rev dp fs m fs' hset p.2 hc with h1 | h1
        · rw [h1] at h; cases h
        · exact hdp h1
      · right
        rw [setFile_metaAt dp fs m fs' hset p.2, if_neg hdp]
        exact h
  · intro q hq1 hq2 hq3
    rcases setFile_exists_rev dp fs m fs' hset q hq3 with h1 | h1
    · rcases inv.shape q hq1 hq2 h1 with hdir | ⟨sp', hsp'⟩
      · left; exact setFile_isdir_mono dp fs m fs' hset q hdir
      · right; exact ⟨sp', List.mem_append_left _ hsp'⟩
    · right
      exact ⟨sp, by simp [h1]⟩
  · intro d' hd'; simp at hd'
  · exact setFile_isdir_mono dp fs m fs' hset destF inv.root

lemma inv_skip {fs0 : FSNode} {destF : FPath}
    {fs : FSNode} {sp dp : FPath}
    {done todo : List (FPath × FPath)}
    (inv : RunInv fs0 destF fs done ((sp, dp) :: todo) [])
    (hmir : metaAt fs dp = metaAt fs0 sp) :
    RunInv fs0 destF fs (done ++ [(sp, dp)]) todo [] := by
  constructor
  · exact inv.src
  · intro p hp
    rcases List.mem_append.mp hp with hp1 | hp2
    · exact inv.mirrored p hp1
    · simp at hp2
      subst hp2
      exact hmir
  · intro p hp
    exact inv.fresh p (List.mem_cons_of_mem _ hp)
  · intro q hq1 hq2 hq3
    rcases inv.shape q hq1 hq2 hq3 with hdir | ⟨sp', hsp'⟩
    · left; exact hdir
    · right; exact ⟨sp', List.mem_append_left _ hsp'⟩
  · exact inv.dirs
  · exact inv.root

lemma metaAt_lookup {fs : FSNode} {p : FPath} {m : FileMeta}
    (h : metaAt fs p = some m) : lookup fs p = some (.file m) := by
  unfold metaAt at h
  rcases hl : lookup fs p with _ | n
  · rw [hl] at h; simp at h
  · rw [hl] at h
    cases n with
    | dir cs => simp at h
    | file m0 => simp at h; rw [h]

lemma dirs_of_meta {fs : FSNode} {p : FPath} {m : FileMeta}
    (h : metaAt fs p = some m) :
    ∀ q, pre q p = true → q ≠ p → isdir fs q = true := by
  intro q hq hne
  obtain ⟨cs, hcs⟩ := lookup_pre_dir (metaAt_lookup h) hq hne
  simp [isdir, hcs]

lemma shape_all_dirs {fs0 : FSNode} {destF : FPath} {items : List FPath}
    {fs : FSNode} {done todo : List (FPath × FPath)}
    (hctx : JobCtx fs0 destF items)
    (inv : RunInv fs0 destF fs done todo [])
    (hdone : ∀ pr ∈ done, pr ∈ jobPairs fs0 destF items)
    {t : FPath} (ht : t ∈ jobDirs fs0 destF items) :
    ∀ q, pre q t = true → q ≠ t → pathExists fs q = false ∨ isdir fs q = true := by
  intro q hq hne
  by_cases hex : pathExists fs q = true
  · right
    obtain ⟨xu, hxu, hteq⟩ := jobDirs_below hctx.wf t ht
    by_cases hqd : q = destF
    · rw [hqd]; exact inv.root
    · rcases pre_of_append (hteq ▸ hq) with h1 | h1
      · obtain ⟨csf, hcsf⟩ := isdir_lookup inv.root
        obtain ⟨cs2, hcs2⟩ := lookup_pre_dir hcsf h1 hqd
        simp [isdir, hcs2]
      · rcases inv.shape q h1 hqd hex with hd | ⟨sp', hsp'⟩
        · exact hd
        · exfalso
          have h2 : pre q t = false :=
            jobPairs_dirs_no_pre hctx.wf hctx.base (sp', q) (hdone _ hsp') t ht
          rw [h2] at hq
          cases hq
  · left
    rwa [Bool.not_eq_true] at hex

lemma dirs_below_dpd {fs0 : FSNode} {destF : FPath} {items : List FPath}
    {fs : FSNode} {done todo : List (FPath × FPath)}
    (hctx : JobCtx fs0 destF items)
    (inv : RunInv fs0 destF fs done todo [])
    (hdone : ∀ pr ∈ done, pr ∈ jobPairs fs0 destF items)
    {t : FPath} (ht : t ∈ jobDirs fs0 destF items)
    (hex : pathExists fs t = true) :
    ∀ q, pre q t = true → isdir fs q = true := by
  have htd : isdir fs t = true := by
    obtain ⟨xu, hxu, hteq⟩ := jobDirs_below hctx.wf t ht
    have hne : t ≠ destF := by
      rw [hteq]
      intro hcon
      have h2 : destF ++ xu = destF ++ [] := by simpa using hcon
      exact hxu (List.append_cancel_left h2)
    have hpre : pre destF t = true := by
      rw [hteq]; exact pre_append_of_pre (pre_refl destF) xu
    rcases inv.shape t hpre hne hex with hd | ⟨sp', hsp'⟩
    · exact hd
    · exfalso
      have h2 : pre t t = false :=
        jobPairs_dirs_no_pre hctx.wf hctx.base (sp', t) (hdone _ hsp') t ht
      rw [pre_refl] at h2
      cases h2
  intro q hq
  by_cases hqt : q = t
  · rw [hqt]; exact htd
  · obtain ⟨cst, hcst⟩ := isdir_lookup htd
    obtain ⟨cs2, hcs2⟩ := lookup_pre_dir hcst hq hqt
    simp [isdir, hcs2]

lemma metaAt_congr {fs1 fs0 : FSNode} {p : FPath}
    (h : lookup fs1 p = lookup fs0 p) : metaAt fs1 p = metaAt fs0 p := by
  unfold metaAt
  rw [h]

lemma isdir_false_of_not_exists {fs : FSNode} {p : FPath}
    (h : pathExists fs p = false) : isdir fs p = false := by
  unfold pathExists at h
  unfold isdir
  rcases hl : lookup fs p with _ | n
  · rfl
  · rw [hl] at h; simp at h

lemma run1_copy_or_skip {fs0 : FSNode} {destF : FPath} {items : List FPath}
    {fs1 : FSNode} {sp dp dpd : FPath} {f : String}
    {done todo : List (FPath × FPath)}
    (hctx : JobCtx fs0 destF items)
    (inv1 : RunInv fs0 destF fs1 done ((sp, dp) :: todo) [])
    (hdone : ∀ pr ∈ done, pr ∈ jobPairs fs0 destF items)
    (htodo : ∀ pr ∈ (sp, dp) :: todo, pr ∈ jobPairs fs0 destF items)
    (hdp : dp = dpd ++ [f])
    (hdirs1 : ∀ q, pre q dpd = true → isdir fs1 q = true) :
    ∃ fs2 m,
      metaAt fs1 sp = some m ∧
      ((is_same_file fs1 sp dp = .ok false ∧ copy2 noFail fs1 sp dp = .ok fs2) ∨
       (is_same_file fs1 sp dp = .ok true ∧ fs2 = fs1)) ∧
      RunInv fs0 destF fs2 (done ++ [(sp, dp)]) todo [] := by
  have hpair : (sp, dp) ∈ jobPairs fs0 destF items :=
    htodo _ (List.mem_cons_self _ _)
  obtain ⟨ii, suf, m, hii, e1, e2, hmsrc⟩ := jobPairs_struct hctx.wf _ hpair
  obtain ⟨hsp1, hsp2⟩ := jobPairs_src_incomp hctx.wf hctx.disj _ hpair
  have hsrc_cur : metaAt fs1 sp = some m := by
    rw [metaAt_congr (inv1.src sp hsp1 hsp2)]
    exact hmsrc
  rcases inv1.fresh _ (List.mem_cons_self _ _) with hfr | hmir
  · have hsame : is_same_file fs1 sp dp = .ok false := is_same_file_of_fresh hfr
    have hnd : isdir fs1 dp = false := isdir_false_of_not_exists hfr
    have hdpne : dp ≠ [] := by rw [hdp]; simp
    have hsetcond : ∀ q, pre q dp = true → q ≠ dp → isdir fs1 q = true := by
      intro q hq hne
      rw [hdp] at hq hne
      exact hdirs1 q (pre_snoc hq hne)
    obtain ⟨fs2, hset⟩ := setFile_succeeds dp fs1 m hdpne hsetcond hnd
    have hcopy : copy2 noFail fs1 sp dp = .ok fs2 := by
      simp [copy2, noFail, hsrc_cur, hset]
    exact ⟨fs2, m, hsrc_cur, Or.inl ⟨hsame, hcopy⟩,
      inv_copy hctx inv1 hdone htodo hmsrc hset⟩
  · have hm2 : metaAt fs1 dp = some m := by rw [hmir]; exact hmsrc
    exact ⟨fs1, m, hsrc_cur, Or.inr ⟨is_same_file_of_meta hsrc_cur hm2, rfl⟩,
      inv_skip inv1 hmir⟩

lemma folderFileStep_run1 {fs0 : FSNode} {destF : FPath} {items : List FPath}
    (hctx : JobCtx fs0 destF items) {total : Nat} (htot : total ≠ 0)
    {i root : FPath} {f : String} {s : WState} {nf nc ns : Nat}
    {done todo : List (FPath × FPath)}
    (inv : RunInv fs0 destF s.fs done
      ((root ++ [f], destFileIn (destF ++ [basename i]) i root f) :: todo) [])
    (hdone : ∀ pr ∈ done, pr ∈ jobPairs fs0 destF items)
    (htodo : ∀ pr ∈ ((root ++ [f],
        destFileIn (destF ++ [basename i]) i root f) :: todo),
      pr ∈ jobPairs fs0 destF items)
    (hdirmem : destF ++ [basename i] ++ relpath root i ∈ jobDirs fs0 destF items) :
    ∃ fs' ev nc' ns',
      folderFileStep noFail total (destF ++ [basename i]) i root f s nf nc ns =
        ((⟨fs', s.processed + 1, s.events ++ [ev]⟩, nf + 1, nc', ns'), none) ∧
      RunInv fs0 destF fs'
        (done ++ [(root ++ [f], destFileIn (destF ++ [basename i]) i root f)])
        todo [] := by
  have hdp : destFileIn (destF ++ [basename i]) i root f =
      (destF ++ [basename i] ++ relpath root i) ++ [f] := by
    simp [destFileIn]
  have hnorm : destF ++ basename i :: relpath root i =
      destF ++ [basename i] ++ relpath root i := by simp
  by_cases hex : pathExists s.fs (destF ++ [basename i] ++ relpath root i) = true
  · have hex2 : pathExists s.fs (destF ++ basename i :: relpath root i) = true := by
      rw [hnorm]; exact hex
    have hdirs1 := dirs_below_dpd hctx inv hdone hdirmem hex
    obtain ⟨fs2, m, hsrc, hbr, inv2⟩ :=
      run1_copy_or_skip hctx inv hdone htodo hdp hdirs1
    rcases hbr with ⟨hsame, hcopy⟩ | ⟨hsame, heq⟩
    · refine ⟨fs2, .progress (.copied (root ++ [f])
          (destFileIn (destF ++ [basename i]) i root f))
          ((s.processed + 1) * 100 / total), nc + 1, ns, ?_, inv2⟩
      simp [folderFileStep, hex2, hsame, hcopy, update_progress, htot]
    · subst heq
      refine ⟨s.fs, .progress (.skippedNoChanges (root ++ [f]))
          ((s.processed + 1) * 100 / total), nc, ns + 1, ?_, inv2⟩
      simp [folderFileStep, hex2, hsame, update_progress, htot]
  · have hexf : pathExists s.fs (destF ++ basename i :: relpath root i) = false := by
      rw [hnorm]
      rwa [Bool.not_eq_true] at hex
    have hcond := shape_all_dirs hctx inv hdone hdirmem
    obtain ⟨fsm, hmk⟩ := mkdirsGo_succeeds
        (destF ++ [basename i] ++ relpath root i) s.fs
        (by simp) hcond (by rwa [Bool.not_eq_true] at hex)
    have hmk2 : mkdirsGo s.fs (destF ++ basename i :: relpath root i) =
        some fsm := by
      rw [hnorm]; exact hmk
    have hmake : makedirs noFail s.fs (destF ++ basename i :: relpath root i) =
        some fsm := by
      simp [makedirs, noFail, hmk2]
    have inv1 : RunInv fs0 destF fsm done
        ((root ++ [f], destFileIn (destF ++ [basename i]) i root f) :: todo) [] :=
      inv_mkdirs hctx inv htodo hdirmem hmk
    have hdirs1 := mkdirsGo_isdir_pre _ _ _ hmk
    obtain ⟨fs2, m, hsrc, hbr, inv2⟩ :=
      run1_copy_or_skip hctx inv1 hdone htodo hdp hdirs1
    rcases hbr with ⟨hsame, hcopy⟩ | ⟨hsame, heq⟩
    · refine ⟨fs2, .progress (.copied (root ++ [f])
          (destFileIn (destF ++ [basename i]) i root f))
          ((s.processed + 1) * 100 / total), nc + 1, ns, ?_, inv2⟩
      simp [folderFileStep, hexf, hmake, hsame, hcopy, update_progress, htot]
    · subst heq
      refine ⟨fs2, .progress (.skippedNoChanges (root ++ [f]))
          ((s.processed + 1) * 100 / total), nc, ns + 1, ?_, inv2⟩
      simp [folderFileStep, hexf, hmake, hsame, update_progress, htot]

lemma isfile_congr {fs1 fs0 : FSNode} {p : FPath}
    (h : lookup fs1 p = lookup fs0 p) : isfile fs1 p = isfile fs0 p := by
  unfold isfile; rw [h]

lemma isdir_congr {fs1 fs0 : FSNode} {p : FPath}
    (h : lookup fs1 p = lookup fs0 p) : isdir fs1 p = isdir fs0 p := by
  unfold isdir; rw [h]

lemma pathExists_of_isdir {fs : FSNode} {p : FPath} (h : isdir fs p = true) :
    pathExists fs p = true := by
  obtain ⟨cs, hcs⟩ := isdir_lookup h
  simp [pathExists, hcs]

lemma filesLoop_run1 {fs0 : FSNode} {destF : FPath} {items : List FPath}
    (hctx : JobCtx fs0 destF items) {total : Nat} (htot : total ≠ 0)
    {i root : FPath}
    (hdirmem : destF ++ [basename i] ++ relpath root i ∈ jobDirs fs0 destF items) :
    ∀ (F : List String) (s : WState) (nf nc ns : Nat)
      (done todo : List (FPath × FPath)),
      RunInv fs0 destF s.fs done
        (F.map (fun f => (root ++ [f],
          destFileIn (destF ++ [basename i]) i root f)) ++ todo) [] →
      (∀ pr ∈ done, pr ∈ jobPairs fs0 destF items) →
      (∀ pr ∈ F.map (fun f => (root ++ [f],
          destFileIn (destF ++ [basename i]) i root f)) ++ todo,
        pr ∈ jobPairs fs0 destF items) →
      ∃ s' nf' nc' ns',
        filesLoop noFail total (destF ++ [basename i]) i root F s nf nc ns =
          ((s', nf', nc', ns'), none) ∧
        RunInv fs0 destF s'.fs
          (done ++ F.map (fun f => (root ++ [f],
            destFileIn (destF ++ [basename i]) i root f))) todo [] := by
  intro F
  induction F with
  | nil =>
    intro s nf nc ns done todo inv hdone htodo
    exact ⟨s, nf, nc, ns, rfl, by simpa using inv⟩
  | cons f F' ih =>
    intro s nf nc ns done todo inv hdone htodo
    rw [List.map_cons, List.cons_append] at inv htodo
    obtain ⟨fs', ev, nc', ns', heq, inv2⟩ :=
      folderFileStep_run1 hctx htot inv hdone htodo hdirmem
    have hpairmem : (root ++ [f], destFileIn (destF ++ [basename i]) i root f) ∈
        jobPairs fs0 destF items := htodo _ (List.mem_cons_self _ _)
    have hdone2 : ∀ pr ∈ done ++
        [(root ++ [f], destFileIn (destF ++ [basename i]) i root f)],
        pr ∈ jobPairs fs0 destF items := by
      intro pr hpr
      rcases List.mem_append.mp hpr with h1 | h1
      · exact hdone pr h1
      · simp at h1; rw [h1]; exact hpairmem
    have htodo2 : ∀ pr ∈ F'.map (fun f => (root ++ [f],
        destFileIn (destF ++ [basename i]) i root f)) ++ todo,
        pr ∈ jobPairs fs0 destF items := by
      intro pr hpr
      exact htodo pr (List.mem_cons_of_mem _ hpr)
    obtain ⟨s', nf', nc'', ns'', heq2, inv3⟩ :=
      ih ⟨fs', s.processed + 1, s.events ++ [ev]⟩ (nf + 1) nc' ns'
        (done ++ [(root ++ [f], destFileIn (destF ++ [basename i]) i root f)])
        todo inv2 hdone2 htodo2
    refine ⟨s', nf', nc'', ns'', ?_, ?_⟩
    · rw [filesLoop, heq]
      exact heq2
    · have hli : (done ++ [(root ++ [f],
          destFileIn (destF ++ [basename i]) i root f)]) ++
          F'.map (fun f => (root ++ [f],
            destFileIn (destF ++ [basename i]) i root f)) =
          done ++ (f :: F').map (fun f => (root ++ [f],
            destFileIn (destF ++ [basename i]) i root f)) := by
        simp
      rw [hli] at inv3
      exact inv3

lemma folderLoop_run1 {fs0 : FSNode} {destF : FPath} {items : List FPath}
    (hctx : JobCtx fs0 destF items) {total : Nat} (htot : total ≠ 0)
    {i : FPath} :
    ∀ (T : List WalkTriple) (s : WState) (nf nc ns : Nat)
      (done todo : List (FPath × FPath)),
      (∀ tr ∈ T, destF ++ [basename i] ++ relpath tr.1 i ∈
        jobDirs fs0 destF items) →
      RunInv fs0 destF s.fs done
        (T.flatMap (fun tr => tr.2.2.map (fun f => (tr.1 ++ [f],
          destFileIn (destF ++ [basename i]) i tr.1 f))) ++ todo) [] →
      (∀ pr ∈ done, pr ∈ jobPairs fs0 destF items) →
      (∀ pr ∈ T.flatMap (fun tr => tr.2.2.map (fun f => (tr.1 ++ [f],
          destFileIn (destF ++ [basename i]) i tr.1 f))) ++ todo,
        pr ∈ jobPairs fs0 destF items) →
      ∃ s' nf' nc' ns',
        folderLoop noFail total (destF ++ [basename i]) i T s nf nc ns =
          ((s', nf', nc', ns'), none) ∧
        RunInv fs0 destF s'.fs
          (done ++ T.flatMap (fun tr => tr.2.2.map (fun f => (tr.1 ++ [f],
            destFileIn (destF ++ [basename i]) i tr.1 f)))) todo [] := by
  intro T
  induction T with
  | nil =>
    intro s nf nc ns done todo _ inv hdone htodo
    exact ⟨s, nf, nc, ns, rfl, by simpa using inv⟩
  | cons tr T' ih =>
    intro s nf nc ns done todo hT inv hdone htodo
    obtain ⟨root, ds, fls⟩ := tr
    rw [List.flatMap_cons, List.append_assoc] at inv htodo
    have hdirmem : destF ++ [basename i] ++ relpath root i ∈
        jobDirs fs0 destF items := hT _ (List.mem_cons_self _ _)
    obtain ⟨s1, nf1, nc1, ns1, heq, inv2⟩ :=
      filesLoop_run1 hctx htot hdirmem fls s nf nc ns done
        (T'.flatMap (fun tr => tr.2.2.map (fun f => (tr.1 ++ [f],
          destFileIn (destF ++ [basename i]) i tr.1 f))) ++ todo)
        inv hdone htodo
    have hdone2 : ∀ pr ∈ done ++ fls.map (fun f => (root ++ [f],
        destFileIn (destF ++ [basename i]) i root f)),
        pr ∈ jobPairs fs0 destF items := by
      intro pr hpr
      rcases List.mem_append.mp hpr with h1 | h1
      · exact hdone pr h1
      · exact htodo pr (List.mem_append_left _ h1)
    have htodo2 : ∀ pr ∈ T'.flatMap (fun tr => tr.2.2.map (fun f => (tr.1 ++ [f],
        destFileIn (destF ++ [basename i]) i tr.1 f))) ++ todo,
        pr ∈ jobPairs fs0 destF items := by
      intro pr hpr
      exact htodo pr (List.mem_append_right _ hpr)
    obtain ⟨s', nf', nc', ns', heq2, inv3⟩ :=
      ih s1 nf1 nc1 ns1
        (done ++ fls.map (fun f => (root ++ [f],
          destFileIn (destF ++ [basename i]) i root f)))
        todo (fun tr2 htr2 => hT tr2 (List.mem_cons_of_mem _ htr2))
        inv2 hdone2 htodo2
    refine ⟨s', nf', nc', ns', ?_, ?_⟩
    · rw [folderLoop, heq]
      exact heq2
    · rw [List.flatMap_cons]
      have hli : (done ++ fls.map (fun f => (root ++ [f],
          destFileIn (destF ++ [basename i]) i root f))) ++
          T'.flatMap (fun tr => tr.2.2.map (fun f => (tr.1 ++ [f],
            destFileIn (destF ++ [basename i]) i tr.1 f))) =
          done ++ (fls.map (fun f => (root ++ [f],
            destFileIn (destF ++ [basename i]) i root f)) ++
          T'.flatMap (fun tr => tr.2.2.map (fun f => (tr.1 ++ [f],
            destFileIn (destF ++ [basename i]) i tr.1 f)))) := by
        simp
      rw [← hli]
      exact inv3

lemma isfile_false_of_isdir {fs : FSNode} {p : FPath} (h : isdir fs p = true) :
    isfile fs p = false := by
  obtain ⟨cs, hcs⟩ := isdir_lookup h
  simp [isfile, hcs]

lemma backup_file_run1 {fs0 : FSNode} {destF : FPath} {items : List FPath}
    (hctx : JobCtx fs0 destF items) {total : Nat} (htot : total ≠ 0)
    {i : FPath} {s : WState} {done todo : List (FPath × FPath)}
    (inv : RunInv fs0 destF s.fs done ((i, destFileTop destF i) :: todo) [])
    (hdone : ∀ pr ∈ done, pr ∈ jobPairs fs0 destF items)
    (htodo : ∀ pr ∈ (i, destFileTop destF i) :: todo,
      pr ∈ jobPairs fs0 destF items) :
    ∃ s', backup_file noFail total destF i s = (s', none) ∧
      s'.processed = s.processed + 1 ∧
      RunInv fs0 destF s'.fs (done ++ [(i, destFileTop destF i)]) todo [] := by
  have hdp : destFileTop destF i = destF ++ [basename i] := rfl
  have hdirs1 : ∀ q, pre q destF = true → isdir s.fs q = true := by
    intro q hq
    by_cases hqd : q = destF
    · rw [hqd]; exact inv.root
    · obtain ⟨cs, hcs⟩ := isdir_lookup inv.root
      obtain ⟨cs2, h2⟩ := lookup_pre_dir hcs hq hqd
      simp [isdir, h2]
  obtain ⟨fs2, m, hsrc, hbr, inv2⟩ :=
    run1_copy_or_skip hctx inv hdone htodo hdp hdirs1
  rcases hbr with ⟨hsame, hcopy⟩ | ⟨hsame, heq⟩
  · refine ⟨⟨fs2, s.processed + 1, s.events ++
        [.progress (.copied i (destFileTop destF i))
          ((s.processed + 1) * 100 / total)]⟩, ?_, rfl, inv2⟩
    simp [backup_file, hsame, hcopy, update_progress, htot]
  · subst heq
    refine ⟨⟨s.fs, s.processed + 1, s.events ++
        [.progress (.skippedNoChanges i)
          ((s.processed + 1) * 100 / total)]⟩, ?_, rfl, inv2⟩
    simp [backup_file, hsame, update_progress, htot]

lemma backup_folder_run1 {fs0 : FSNode} {destF : FPath} {items : List FPath}
    (hctx : JobCtx fs0 destF items) {total : Nat} (htot : total ≠ 0)
    {i : FPath} (hi : i ∈ items) (hdi : isdir fs0 i = true)
    {s : WState} {done todo : List (FPath × FPath)}
    (inv : RunInv fs0 destF s.fs done (pairsOfItem fs0 destF i ++ todo) [])
    (hdone : ∀ pr ∈ done, pr ∈ jobPairs fs0 destF items)
    (htodo : ∀ pr ∈ pairsOfItem fs0 destF i ++ todo,
      pr ∈ jobPairs fs0 destF items) :
    ∃ s', backup_folder noFail total destF i s = (s', none) ∧
      RunInv fs0 destF s'.fs (done ++ pairsOfItem fs0 destF i) todo [] := by
  have hfi : isfile fs0 i = false := isfile_false_of_isdir hdi
  have hpairs_eq : pairsOfItem fs0 destF i =
      (walk fs0 i).flatMap (fun tr => tr.2.2.map (fun f => (tr.1 ++ [f],
        destFileIn (destF ++ [basename i]) i tr.1 f))) := by
    simp [pairsOfItem, hfi, hdi]
  have hT : ∀ tr ∈ walk fs0 i, destF ++ [basename i] ++ relpath tr.1 i ∈
      jobDirs fs0 destF items := by
    intro tr htr
    apply List.mem_flatMap.mpr
    refine ⟨i, hi, ?_⟩
    unfold dirsOfItem
    rw [if_pos hdi]
    exact List.mem_map.mpr ⟨tr, htr, rfl⟩
  have hDmem : destF ++ [basename i] ∈ jobDirs fs0 destF items := by
    obtain ⟨cs0, hcs0⟩ := isdir_lookup hdi
    have hwne : (i, dirNames cs0, fileNames cs0) ∈ walk fs0 i := by
      have hw : walk fs0 i = walkNode i (.dir cs0) := by
        unfold walk
        rw [hcs0]
      rw [hw, walkNode]
      exact List.mem_cons_self _ _
    have := hT _ hwne
    simpa [relpath] using this
  have hinvsrc := inv.src i (hctx.disj i hi).1 (hctx.disj i hi).2
  rw [hpairs_eq] at inv htodo
  by_cases hex : pathExists s.fs (destF ++ [basename i]) = true
  · have hwalk : walk s.fs i = walk fs0 i := walk_congr hinvsrc
    obtain ⟨s1, nf1, nc1, ns1, heq, inv2⟩ :=
      folderLoop_run1 hctx htot (walk fs0 i) s 0 0 0 done todo hT inv hdone htodo
    refine ⟨⟨s1.fs, s1.processed + 1, s1.events ++
        [.progress (.folderSummary i nf1 nc1 ns1)
          ((s1.processed + 1) * 100 / total)]⟩, ?_, ?_⟩
    · simp [backup_folder, hex, hwalk, heq, update_progress, htot]
    · rw [hpairs_eq]
      exact inv2
  · obtain ⟨fsm, hmk⟩ := mkdirsGo_succeeds (destF ++ [basename i]) s.fs
      (by simp) (shape_all_dirs hctx inv hdone hDmem)
      (by rwa [Bool.not_eq_true] at hex)
    have hmake : makedirs noFail s.fs (destF ++ [basename i]) = some fsm := by
      simp [makedirs, noFail, hmk]
    have inv1 : RunInv fs0 destF fsm done
        ((walk fs0 i).flatMap (fun tr => tr.2.2.map (fun f => (tr.1 ++ [f],
          destFileIn (destF ++ [basename i]) i tr.1 f))) ++ todo) [] :=
      inv_mkdirs hctx inv htodo hDmem hmk
    have hwalk : walk fsm i = walk fs0 i :=
      walk_congr (inv1.src i (hctx.disj i hi).1 (hctx.disj i hi).2)
    obtain ⟨s1, nf1, nc1, ns1, heq, inv2⟩ :=
      folderLoop_run1 hctx htot (walk fs0 i) ⟨fsm, s.processed, s.events⟩ 0 0 0
        done todo hT inv1 hdone htodo
    refine ⟨⟨s1.fs, s1.processed + 1, s1.events ++
        [.progress (.folderSummary i nf1 nc1 ns1)
          ((s1.processed + 1) * 100 / total)]⟩, ?_, ?_⟩
    · simp [backup_folder, hex, hmake, hwalk, heq, update_progress, htot]
    · rw [hpairs_eq]
      exact inv2

lemma jobPairs_cons (fs0 : FSNode) (destF : FPath) (i : FPath)
    (its : List FPath) :
    jobPairs fs0 destF (i :: its) =
      pairsOfItem fs0 destF i ++ jobPairs fs0 destF its := by
  simp [jobPairs]

lemma runItems_run1 {fs0 : FSNode} {destF : FPath} {items : List FPath}
    (hctx : JobCtx fs0 destF items) {total : Nat} (htot : total ≠ 0) :
    ∀ (its : List FPath) (s : WState) (done : List (FPath × FPath)),
      (∀ x ∈ its, x ∈ items) →
      RunInv fs0 destF s.fs done (jobPairs fs0 destF its) [] →
      (∀ pr ∈ done, pr ∈ jobPairs fs0 destF items) →
      (∀ pr ∈ jobPairs fs0 destF its, pr ∈ jobPairs fs0 destF items) →
      ∃ s', runItems noFail total destF its s = (s', none) ∧
        RunInv fs0 destF s'.fs (done ++ jobPairs fs0 destF its) [] [] := by
  intro its
  induction its with
  | nil =>
    intro s done _ inv hdone _
    exact ⟨s, rfl, by simpa [jobPairs] using inv⟩
  | cons i its' ih =>
    intro s done hsub inv hdone htodo
    have hii : i ∈ items := hsub i (List.mem_cons_self _ _)
    have hlooki : lookup s.fs i = lookup fs0 i :=
      inv.src i (hctx.disj i hii).1 (hctx.disj i hii).2
    have hfile : isfile s.fs i = isfile fs0 i := isfile_congr hlooki
    have hdir : isdir s.fs i = isdir fs0 i := isdir_congr hlooki
    rw [jobPairs_cons] at inv htodo
    by_cases hfi : isfile fs0 i = true
    · have hpi : pairsOfItem fs0 destF i = [(i, destFileTop destF i)] := by
        simp [pairsOfItem, hfi]
      rw [hpi, List.singleton_append] at inv htodo
      obtain ⟨s1, heq, _, inv2⟩ := backup_file_run1 hctx htot inv hdone
        (fun pr hpr => htodo pr hpr)
      have hdone2 : ∀ pr ∈ done ++ [(i, destFileTop destF i)],
          pr ∈ jobPairs fs0 destF items := by
        intro pr hpr
        rcases List.mem_append.mp hpr with h1 | h1
        · exact hdone pr h1
        · simp at h1; rw [h1]
          exact htodo _ (List.mem_cons_self _ _)
      obtain ⟨s', heq2, inv3⟩ := ih s1 (done ++ [(i, destFileTop destF i)])
        (fun x hx => hsub x (List.mem_cons_of_mem _ hx)) inv2 hdone2
        (fun pr hpr => htodo pr (List.mem_cons_of_mem _ hpr))
      refine ⟨s', ?_, ?_⟩
      · rw [runItems]
        rw [hfile, if_pos hfi, heq]
        exact heq2
      · rw [jobPairs_cons, hpi]
        have hli : (done ++ [(i, destFileTop destF i)]) ++
            jobPairs fs0 destF its' =
            done ++ ([(i, destFileTop destF i)] ++ jobPairs fs0 destF its') := by
          simp
        rw [← hli]
        exact inv3
    · by_cases hdi : isdir fs0 i = true
      · obtain ⟨s1, heq, inv2⟩ := backup_folder_run1 hctx htot hii hdi inv hdone htodo
        have hdone2 : ∀ pr ∈ done ++ pairsOfItem fs0 destF i,
            pr ∈ jobPairs fs0 destF items := by
          intro pr hpr
          rcases List.mem_append.mp hpr with h1 | h1
          · exact hdone pr h1
          · exact htodo pr (List.mem_append_left _ h1)
        obtain ⟨s', heq2, inv3⟩ := ih s1 (done ++ pairsOfItem fs0 destF i)
          (fun x hx => hsub x (List.mem_cons_of_mem _ hx)) inv2 hdone2
          (fun pr hpr => htodo pr (List.mem_append_right _ hpr))
        refine ⟨s', ?_, ?_⟩
        · rw [runItems]
          rw [hfile, if_neg hfi, hdir, if_pos hdi, heq]
          exact heq2
        · rw [jobPairs_cons]
          have hli : (done ++ pairsOfItem fs0 destF i) ++
              jobPairs fs0 destF its' =
              done ++ (pairsOfItem fs0 destF i ++ jobPairs fs0 destF its') := by
            simp
          rw [← hli]
          exact inv3
      · have hpi : pairsOfItem fs0 destF i = [] := by
          simp [pairsOfItem, hfi, hdi]
        rw [hpi, List.nil_append] at inv htodo
        obtain ⟨s', heq2, inv3⟩ := ih s done
          (fun x hx => hsub x (List.mem_cons_of_mem _ hx)) inv hdone htodo
        refine ⟨s', ?_, ?_⟩
        · rw [runItems]
          rw [hfile, if_neg hfi, hdir, if_neg hdi]
          exact heq2
        · rw [jobPairs_cons, hpi, List.nil_append]
          exact inv3

lemma below_dest_none {fs0 : FSNode} {destF : FPath}
    (hroot : lookup fs0 destF = some (.dir [])) (x : String) (u : FPath) :
    lookup fs0 (destF ++ x :: u) = none := by
  rw [lookup_append, hroot, Option.some_bind]
  simp [lookup, lookupCh]

lemma run_inv0 {fs0 : FSNode} {destF : FPath} {items : List FPath}
    (hctx : JobCtx fs0 destF items) :
    RunInv fs0 destF fs0 [] (jobPairs fs0 destF items) [] := by
  constructor
  · intro q _ _; rfl
  · intro p hp; simp at hp
  · intro p hp
    left
    obtain ⟨xu, hxu, hdeq⟩ := jobPairs_below hctx.wf p hp
    cases xu with
    | nil => exact absurd rfl hxu
    | cons x u =>
      rw [hdeq]
      simp [pathExists, below_dest_none hctx.destRoot x u]
  · intro q hq1 hq2 hq3
    exfalso
    obtain ⟨t, rfl⟩ := pre_iff.mp hq1
    cases t with
    | nil => simp at hq2
    | cons x u =>
      rw [pathExists, below_dest_none hctx.destRoot x u] at hq3
      simp at hq3
  · intro d hd; simp at hd
  · simp [isdir, hctx.destRoot]

lemma run_run1 {fs0 : FSNode} {destF : FPath} {items : List FPath}
    (hctx : JobCtx fs0 destF items)
    (htot : calculate_total_files fs0 items ≠ 0) :
    ∃ s1 : WState, BackupWorker.run noFail items destF fs0 =
        ({ fs := s1.fs, processed := s1.processed,
           events := s1.events ++ [.completed] }, none) ∧
      RunInv fs0 destF s1.fs (jobPairs fs0 destF items) [] [] := by
  obtain ⟨s, heq, inv⟩ := runItems_run1 hctx htot items ⟨fs0, 0, []⟩ []
    (fun x hx => hx) (run_inv0 hctx) (by simp) (fun pr hpr => hpr)
  refine ⟨s, ?_, by simpa using inv⟩
  unfold BackupWorker.run
  dsimp only
  rw [heq]

lemma skip_event_only {e : Event} (h : isSkipEvent e = true) :
    isCopiedEvent e = false ∧ isFailureEvent e = false := by
  cases e with
  | completed => simp [isSkipEvent] at h
  | progress m k =>
    cases m <;> simp [isSkipEvent, isCopiedEvent, isFailureEvent] at h ⊢

lemma foldl_len (trs : List WalkTriple) : ∀ n : Nat,
    trs.foldl (fun a tr => a + tr.2.2.length) n =
      n + (trs.map (fun tr => tr.2.2.length)).sum := by
  induction trs with
  | nil => intro n; simp
  | cons tr rest ih =>
    intro n
    simp only [List.foldl_cons, List.map_cons, List.sum_cons, ih]
    omega

lemma pairsOfItem_len_dir {fs0 : FSNode} {destF i : FPath}
    (hfi : isfile fs0 i = false) (hdi : isdir fs0 i = true) :
    (pairsOfItem fs0 destF i).length =
      ((walk fs0 i).map (fun tr => tr.2.2.length)).sum := by
  unfold pairsOfItem
  rw [if_neg (show ¬ isfile fs0 i = true by simp [hfi]), if_pos hdi,
    List.length_flatMap]
  have h2 : ∀ tr ∈ walk fs0 i,
      (List.length ∘ fun tr : WalkTriple => tr.2.2.map
        (fun f => (tr.1 ++ [f], destFileIn (destF ++ [basename i]) i tr.1 f))) tr =
      tr.2.2.length := by
    intro tr _
    simp
  rw [List.map_congr_left h2]

lemma calc_eq_pairs (fs0 : FSNode) (destF : FPath) (items : List FPath) :
    calculate_total_files fs0 items = (jobPairs fs0 destF items).length := by
  have aux : ∀ (l : List FPath) (t : Nat),
      l.foldl
        (fun t item =>
          if isfile fs0 item then t + 1
          else if isdir fs0 item then
            t + (walk fs0 item).foldl (fun a tr => a + tr.2.2.length) 0
          else t) t = t + (jobPairs fs0 destF l).length := by
    intro l
    induction l with
    | nil => intro t; simp [jobPairs]
    | cons i rest ih =>
      intro t
      rw [List.foldl_cons, ih, jobPairs_cons, List.length_append]
      by_cases hfi : isfile fs0 i = true
      · have hpi : (pairsOfItem fs0 destF i).length = 1 := by
          simp [pairsOfItem, hfi]
        rw [hpi]
        simp [hfi]
        omega
      · rw [Bool.not_eq_true] at hfi
        by_cases hdi : isdir fs0 i = true
        · rw [pairsOfItem_len_dir hfi hdi]
          simp [hfi, hdi, foldl_len]
          omega
        · have hpi : (pairsOfItem fs0 destF i).length = 0 := by
            simp [pairsOfItem, hfi, hdi]
          rw [hpi]
          simp [hfi, hdi]
  unfold calculate_total_files
  rw [aux items 0]
  omega

lemma calc_congr {fs1 fs0 : FSNode} {items : List FPath}
    (h : ∀ i ∈ items, lookup fs1 i = lookup fs0 i) :
    calculate_total_files fs1 items = calculate_total_files fs0 items := by
  unfold calculate_total_files
  have aux : ∀ (l : List FPath), (∀ i ∈ l, lookup fs1 i = lookup fs0 i) →
      ∀ t : Nat,
      l.foldl
        (fun t item =>
          if isfile fs1 item then t + 1
          else if isdir fs1 item then
            t + (walk fs1 item).foldl (fun a tr => a + tr.2.2.length) 0
          else t) t =
      l.foldl
        (fun t item =>
          if isfile fs0 item then t + 1
          else if isdir fs0 item then
            t + (walk fs0 item).foldl (fun a tr => a + tr.2.2.length) 0
          else t) t := by
    intro l
    induction l with
    | nil => intro _ t; rfl
    | cons i rest ih =>
      intro hl t
      have hi := hl i (List.mem_cons_self i rest)
      rw [List.foldl_cons, List.foldl_cons,
        isfile_congr hi, isdir_congr hi, walk_congr hi,
        ih (fun j hj => hl j (List.mem_cons_of_mem _ hj))]
  exact aux items h 0

lemma folderFileStep_run2 {total : Nat} (htot : total ≠ 0)
    {D P root : FPath} {f : String} {s : WState} {nf nc ns : Nat} {m : FileMeta}
    (hsrc : metaAt s.fs (root ++ [f]) = some m)
    (hdst : metaAt s.fs (destFileIn D P root f) = some m) :
    folderFileStep noFail total D P root f s nf nc ns =
      ((⟨s.fs, s.processed + 1,
         s.events ++ [.progress (.skippedNoChanges (root ++ [f]))
           ((s.processed + 1) * 100 / total)]⟩, nf + 1, nc, ns + 1), none) := by
  have hpre : pre (D ++ relpath root P) (destFileIn D P root f) = true := by
    unfold destFileIn
    exact pre_append_of_pre (pre_refl _) [f]
  have hne : D ++ relpath root P ≠ destFileIn D P root f := by
    unfold destFileIn
    intro hc
    have := congrArg List.length hc
    simp at this
  have hdd : pathExists s.fs (D ++ relpath root P) = true :=
    pathExists_of_isdir (dirs_of_meta hdst _ hpre hne)
  simp [folderFileStep, hdd, is_same_file_of_meta hsrc hdst,
    update_progress, htot]

lemma filesLoop_run2 {total : Nat} (htot : total ≠ 0) {D P root : FPath} :
    ∀ (F : List String) (s : WState) (nf nc ns : Nat),
      (∀ f ∈ F, ∃ m, metaAt s.fs (root ++ [f]) = some m ∧
        metaAt s.fs (destFileIn D P root f) = some m) →
      ∃ s' : WState,
        filesLoop noFail total D P root F s nf nc ns =
          ((s', nf + F.length, nc, ns + F.length), none) ∧
        s'.fs = s.fs ∧ s'.processed = s.processed + F.length ∧
        ∃ ev, s'.events = s.events ++ ev ∧ ev.length = F.length ∧
          ∀ e ∈ ev, isSkipEvent e = true := by
  intro F
  induction F with
  | nil =>
    intro s nf nc ns _
    exact ⟨s, by simp [filesLoop], rfl, by simp,
      [], by simp, rfl, by simp⟩
  | cons f F' ih =>
    intro s nf nc ns h
    obtain ⟨m, hs, hd⟩ := h f (List.mem_cons_self _ _)
    have h' : ∀ g ∈ F', ∃ m,
        metaAt (WState.mk s.fs (s.processed + 1)
          (s.events ++ [.progress (.skippedNoChanges (root ++ [f]))
            ((s.processed + 1) * 100 / total)])).fs (root ++ [g]) = some m ∧
        metaAt (WState.mk s.fs (s.processed + 1)
          (s.events ++ [.progress (.skippedNoChanges (root ++ [f]))
            ((s.processed + 1) * 100 / total)])).fs (destFileIn D P root g) =
          some m := by
      intro g hg
      exact h g (List.mem_cons_of_mem _ hg)
    obtain ⟨s', heq2, hfs, hproc, ev, hev, hlen, hall⟩ :=
      ih (WState.mk s.fs (s.processed + 1)
        (s.events ++ [.progress (.skippedNoChanges (root ++ [f]))
          ((s.processed + 1) * 100 / total)])) (nf + 1) nc (ns + 1) h'
    have hn1 : nf + 1 + F'.length = nf + (F'.length + 1) := by omega
    have hn2 : ns + 1 + F'.length = ns + (F'.length + 1) := by omega
    rw [hn1, hn2] at heq2
    refine ⟨s', ?_, hfs, ?_, .progress (.skippedNoChanges (root ++ [f]))
      ((s.processed + 1) * 100 / total) :: ev, ?_, ?_, ?_⟩
    · rw [filesLoop, folderFileStep_run2 htot hs hd]
      simpa using heq2
    · simp only [List.length_cons]
      simp at hproc
      omega
    · rw [hev]
      simp
    · simp [hlen]
    · intro e he
      rcases List.mem_cons.mp he with h1 | h1
      · rw [h1]
        rfl
      · exact hall e h1

lemma folderLoop_run2 {total : Nat} (htot : total ≠ 0) {D P : FPath} :
    ∀ (T : List WalkTriple) (s : WState) (nf nc ns : Nat),
      (∀ tr ∈ T, ∀ f ∈ tr.2.2, ∃ m, metaAt s.fs (tr.1 ++ [f]) = some m ∧
        metaAt s.fs (destFileIn D P tr.1 f) = some m) →
      ∃ (s' : WState) (nf' nc' ns' : Nat),
        folderLoop noFail total D P T s nf nc ns = ((s', nf', nc', ns'), none) ∧
        s'.fs = s.fs ∧
        s'.processed = s.processed + (T.map (fun tr => tr.2.2.length)).sum ∧
        ∃ ev, s'.events = s.events ++ ev ∧
          ev.length = (T.map (fun tr => tr.2.2.length)).sum ∧
          ∀ e ∈ ev, isSkipEvent e = true := by
  intro T
  induction T with
  | nil =>
    intro s nf nc ns _
    exact ⟨s, nf, nc, ns, rfl, rfl, by simp, [], by simp, by simp, by simp⟩
  | cons tr T' ih =>
    intro s nf nc ns h
    obtain ⟨root, ds, fls⟩ := tr
    obtain ⟨s1, heq1, hfs1, hproc1, ev1, hev1, hlen1, hall1⟩ :=
      filesLoop_run2 htot fls s nf nc ns
        (fun f hf => h (root, ds, fls) (List.mem_cons_self _ _) f hf)
    have h' : ∀ tr2 ∈ T', ∀ f ∈ tr2.2.2, ∃ m,
        metaAt s1.fs (tr2.1 ++ [f]) = some m ∧
        metaAt s1.fs (destFileIn D P tr2.1 f) = some m := by
      intro tr2 htr2 f hf
      rw [hfs1]
      exact h tr2 (List.mem_cons_of_mem _ htr2) f hf
    obtain ⟨s', nf', nc', ns', heq2, hfs2, hproc2, ev2, hev2, hlen2, hall2⟩ :=
      ih s1 (nf + fls.length) nc (ns + fls.length) h'
    refine ⟨s', nf', nc', ns', ?_, ?_, ?_, ev1 ++ ev2, ?_, ?_, ?_⟩
    · rw [folderLoop, heq1]
      exact heq2
    · rw [hfs2, hfs1]
    · rw [hproc2, hproc1]
      simp
      omega
    · rw [hev2, hev1]
      simp
    · rw [List.length_append, hlen1, hlen2]
      simp
    · intro e he
      rcases List.mem_append.mp he with h1 | h1
      · exact hall1 e h1
      · exact hall2 e h1

lemma backup_folder_run2 {fs0 : FSNode} {destF : FPath} {items : List FPath}
    (hctx : JobCtx fs0 destF items) {total : Nat} (htot : total ≠ 0)
    {i : FPath} (hi : i ∈ items) (hdi : isdir fs0 i = true)
    {s : WState} {done : List (FPath × FPath)}
    (inv : RunInv fs0 destF s.fs done [] [])
    (hdone : ∀ pr ∈ done, pr ∈ jobPairs fs0 destF items)
    (hmirr : ∀ pr ∈ pairsOfItem fs0 destF i, pr ∈ done) :
    ∃ s' : WState, backup_folder noFail total destF i s = (s', none) ∧
      RunInv fs0 destF s'.fs done [] [] ∧
      ∃ ev, s'.events = s.events ++ ev ∧
        ev.countP isSkipEvent = (pairsOfItem fs0 destF i).length ∧
        ∀ e ∈ ev, isCopiedEvent e = false ∧ isFailureEvent e = false := by
  have hfi : isfile fs0 i = false := isfile_false_of_isdir hdi
  have hpairs_eq : pairsOfItem fs0 destF i =
      (walk fs0 i).flatMap (fun tr => tr.2.2.map (fun f => (tr.1 ++ [f],
        destFileIn (destF ++ [basename i]) i tr.1 f))) := by
    simp [pairsOfItem, hfi, hdi]
  have hmeta : ∀ (fsx : FSNode), RunInv fs0 destF fsx done [] [] →
      ∀ tr ∈ walk fs0 i, ∀ f ∈ tr.2.2, ∃ m',
        metaAt fsx (tr.1 ++ [f]) = some m' ∧
        metaAt fsx (destFileIn (destF ++ [basename i]) i tr.1 f) = some m' := by
    intro fsx invx tr htr f hf
    have hp : (tr.1 ++ [f], destFileIn (destF ++ [basename i]) i tr.1 f) ∈
        pairsOfItem fs0 destF i := by
      rw [hpairs_eq]
      exact List.mem_flatMap.mpr ⟨tr, htr, List.mem_map.mpr ⟨f, hf, rfl⟩⟩
    have hpj : (tr.1 ++ [f], destFileIn (destF ++ [basename i]) i tr.1 f) ∈
        jobPairs fs0 destF items :=
      List.mem_flatMap.mpr ⟨i, hi, hp⟩
    obtain ⟨ii, suf, m', hii, e1, e2, hm0⟩ := jobPairs_struct hctx.wf _ hpj
    obtain ⟨h1, h2⟩ := jobPairs_src_incomp hctx.wf hctx.disj _ hpj
    refine ⟨m', ?_, ?_⟩
    · rw [metaAt_congr (invx.src _ h1 h2)]
      exact hm0
    · rw [invx.mirrored _ (hmirr _ hp)]
      exact hm0
  have hT : ∀ tr ∈ walk fs0 i, destF ++ [basename i] ++ relpath tr.1 i ∈
      jobDirs fs0 destF items := by
    intro tr htr
    apply List.mem_flatMap.mpr
    refine ⟨i, hi, ?_⟩
    unfold dirsOfItem
    rw [if_pos hdi]
    exact List.mem_map.mpr ⟨tr, htr, rfl⟩
  have hcnt_len : (pairsOfItem fs0 destF i).length =
      ((walk fs0 i).map (fun tr => tr.2.2.length)).sum :=
    pairsOfItem_len_dir hfi hdi
  by_cases hex : pathExists s.fs (destF ++ [basename i]) = true
  · have hwalk : walk s.fs i = walk fs0 i :=
      walk_congr (inv.src i (hctx.disj i hi).1 (hctx.disj i hi).2)
    obtain ⟨s1, nf1, nc1, ns1, heq, hfs1, hproc1, ev, hev, hlen, hall⟩ :=
      folderLoop_run2 htot (walk fs0 i) s 0 0 0 (hmeta s.fs inv)
    refine ⟨⟨s1.fs, s1.processed + 1, s1.events ++
        [.progress (.folderSummary i nf1 nc1 ns1)
          ((s1.processed + 1) * 100 / total)]⟩, ?_, ?_, ?_⟩
    · simp [backup_folder, hex, hwalk, heq, update_progress, htot]
    · show RunInv fs0 destF s1.fs done [] []
      rw [hfs1]
      exact inv
    · refine ⟨ev ++ [.progress (.folderSummary i nf1 nc1 ns1)
        ((s1.processed + 1) * 100 / total)], ?_, ?_, ?_⟩
      · show s1.events ++ _ = _
        rw [hev]
        simp
      · have hcnt : ev.countP isSkipEvent = ev.length :=
          List.countP_eq_length.mpr (fun a ha => hall a ha)
        have hsummary : isSkipEvent (.progress (.folderSummary i nf1 nc1 ns1)
            ((s1.processed + 1) * 100 / total)) = false := rfl
        rw [List.countP_append, hcnt, hlen, hcnt_len]
        simp [hsummary]
      · intro e he
        rcases List.mem_append.mp he with h1 | h1
        · exact skip_event_only (hall e h1)
        · simp at h1
          rw [h1]
          exact ⟨rfl, rfl⟩
  · have hDmem : destF ++ [basename i] ∈ jobDirs fs0 destF items := by
      obtain ⟨cs0, hcs0⟩ := isdir_lookup hdi
      have hwne : (i, dirNames cs0, fileNames cs0) ∈ walk fs0 i := by
        have hw : walk fs0 i = walkNode i (.dir cs0) := by
          unfold walk
          rw [hcs0]
        rw [hw, walkNode]
        exact List.mem_cons_self _ _
      have := hT _ hwne
      simpa [relpath] using this
    obtain ⟨fsm, hmk⟩ := mkdirsGo_succeeds (destF ++ [basename i]) s.fs
      (by simp) (shape_all_dirs hctx inv hdone hDmem)
      (by rwa [Bool.not_eq_true] at hex)
    have hmake : makedirs noFail s.fs (destF ++ [basename i]) = some fsm := by
      simp [makedirs, noFail, hmk]
    have inv1 : RunInv fs0 destF fsm done [] [] :=
      inv_mkdirs hctx inv (fun pr hpr => absurd hpr (List.not_mem_nil pr))
        hDmem hmk
    have hwalk : walk fsm i = walk fs0 i :=
      walk_congr (inv1.src i (hctx.disj i hi).1 (hctx.disj i hi).2)
    obtain ⟨s1, nf1, nc1, ns1, heq, hfs1, hproc1, ev, hev, hlen, hall⟩ :=
      folderLoop_run2 htot (walk fs0 i) ⟨fsm, s.processed, s.events⟩ 0 0 0
        (hmeta fsm inv1)
    refine ⟨⟨s1.fs, s1.processed + 1, s1.events ++
        [.progress (.folderSummary i nf1 nc1 ns1)
          ((s1.processed + 1) * 100 / total)]⟩, ?_, ?_, ?_⟩
    · simp [backup_folder, hex, hmake, hwalk, heq, update_progress, htot]
    · show RunInv fs0 destF s1.fs done [] []
      rw [hfs1]
      exact inv1
    · refine ⟨ev ++ [.progress (.folderSummary i nf1 nc1 ns1)
        ((s1.processed + 1) * 100 / total)], ?_, ?_, ?_⟩
      · show s1.events ++ _ = _
        rw [hev]
        simp
      · have hcnt : ev.countP isSkipEvent = ev.length :=
          List.countP_eq_length.mpr (fun a ha => hall a ha)
        have hsummary : isSkipEvent (.progress (.folderSummary i nf1 nc1 ns1)
            ((s1.processed + 1) * 100 / total)) = false := rfl
        rw [List.countP_append, hcnt, hlen, hcnt_len]
        simp [hsummary]
      · intro e he
        rcases List.mem_append.mp he with h1 | h1
        · exact skip_event_only (hall e h1)
        · simp at h1
          rw [h1]
          exact ⟨rfl, rfl⟩

lemma backup_file_run2 {fs0 : FSNode} {destF : FPath} {items : List FPath}
    (hctx : JobCtx fs0 destF items) {total : Nat} (htot : total ≠ 0)
    {i : FPath} {s : WState} {done : List (FPath × FPath)}
    (inv : RunInv fs0 destF s.fs done [] [])
    (hdone : ∀ pr ∈ done, pr ∈ jobPairs fs0 destF items)
    (hpd : (i, destFileTop destF i) ∈ done) :
    backup_file noFail total destF i s =
      (⟨s.fs, s.processed + 1, s.events ++
        [.progress (.skippedNoChanges i)
          ((s.processed + 1) * 100 / total)]⟩, none) := by
  have hpj := hdone _ hpd
  obtain ⟨h1, h2⟩ := jobPairs_src_incomp hctx.wf hctx.disj _ hpj
  obtain ⟨ii, suf, m, hii, e1, e2, hm0⟩ := jobPairs_struct hctx.wf _ hpj
  have hsrc : metaAt s.fs i = some m := by
    rw [metaAt_congr (inv.src i h1 h2)]
    exact hm0
  have hdst : metaAt s.fs (destFileTop destF i) = some m := by
    rw [inv.mirrored _ hpd]
    exact hm0
  simp [backup_file, is_same_file_of_meta hsrc hdst, update_progress, htot]

lemma runItems_run2 {fs0 : FSNode} {destF : FPath} {items : List FPath}
    (hctx : JobCtx fs0 destF items) {total : Nat} (htot : total ≠ 0)
    {done : List (FPath × FPath)}
    (hdone : ∀ pr ∈ done, pr ∈ jobPairs fs0 destF items) :
    ∀ (its : List FPath) (s : WState),
      (∀ x ∈ its, x ∈ items) →
      RunInv fs0 destF s.fs done [] [] →
      (∀ pr ∈ jobPairs fs0 destF its, pr ∈ done) →
      ∃ s' : WState, runItems noFail total destF its s = (s', none) ∧
        RunInv fs0 destF s'.fs done [] [] ∧
        ∃ ev, s'.events = s.events ++ ev ∧
          ev.countP isSkipEvent = (jobPairs fs0 destF its).length ∧
          ∀ e ∈ ev, isCopiedEvent e = false ∧ isFailureEvent e = false := by
  intro its
  induction its with
  | nil =>
    intro s _ inv _
    exact ⟨s, rfl, inv, [], by simp, by simp [jobPairs], by simp⟩
  | cons i its' ih =>
    intro s hsub inv htodo
    have hii : i ∈ items := hsub i (List.mem_cons_self _ _)
    have hlooki : lookup s.fs i = lookup fs0 i :=
      inv.src i (hctx.disj i hii).1 (hctx.disj i hii).2
    have hfile : isfile s.fs i = isfile fs0 i := isfile_congr hlooki
    have hdir : isdir s.fs i = isdir fs0 i := isdir_congr hlooki
    have htodo' : ∀ pr ∈ jobPairs fs0 destF its', pr ∈ done := by
      intro pr hpr
      apply htodo
      rw [jobPairs_cons]
      exact List.mem_append_right _ hpr
    by_cases hfi : isfile fs0 i = true
    · have hpi : pairsOfItem fs0 destF i = [(i, destFileTop destF i)] := by
        simp [pairsOfItem, hfi]
      have hpd : (i, destFileTop destF i) ∈ done := by
        apply htodo
        rw [jobPairs_cons, hpi]
        exact List.mem_append_left _ (List.mem_cons_self _ _)
      have heq := backup_file_run2 hctx htot inv hdone hpd
      obtain ⟨s', heq2, inv2, ev, hev, hcnt, hall⟩ :=
        ih (WState.mk s.fs (s.processed + 1)
            (s.events ++ [.progress (.skippedNoChanges i)
              ((s.processed + 1) * 100 / total)]))
          (fun x hx => hsub x (List.mem_cons_of_mem _ hx)) inv htodo'
      refine ⟨s', ?_, inv2,
        .progress (.skippedNoChanges i)
          ((s.processed + 1) * 100 / total) :: ev, ?_, ?_, ?_⟩
      · rw [runItems, hfile, if_pos hfi, heq]
        exact heq2
      · rw [hev]
        simp
      · rw [jobPairs_cons, hpi, List.length_append, List.countP_cons]
        simp [isSkipEvent, hcnt]
        omega
      · intro e he
        rcases List.mem_cons.mp he with h1 | h1
        · rw [h1]
          exact ⟨rfl, rfl⟩
        · exact hall e h1
    · by_cases hdi : isdir fs0 i = true
      · have hmirr : ∀ pr ∈ pairsOfItem fs0 destF i, pr ∈ done := by
          intro pr hpr
          apply htodo
          rw [jobPairs_cons]
          exact List.mem_append_left _ hpr
        obtain ⟨s1, heq, inv1, ev1, hev1, hcnt1, hall1⟩ :=
          backup_folder_run2 hctx htot hii hdi inv hdone hmirr
        obtain ⟨s', heq2, inv2, ev2, hev2, hcnt2, hall2⟩ :=
          ih s1 (fun x hx => hsub x (List.mem_cons_of_mem _ hx)) inv1 htodo'
        refine ⟨s', ?_, inv2, ev1 ++ ev2, ?_, ?_, ?_⟩
        · rw [runItems, hfile, if_neg hfi, hdir, if_pos hdi, heq]
          exact heq2
        · rw [hev2, hev1]
          simp
        · rw [jobPairs_cons, List.length_append, List.countP_append,
            hcnt1, hcnt2]
        · intro e he
          rcases List.mem_append.mp he with h1 | h1
          · exact hall1 e h1
          · exact hall2 e h1
      · have hpi : pairsOfItem fs0 destF i = [] := by
          simp [pairsOfItem, hfi, hdi]
        obtain ⟨s', heq2, inv2, ev, hev, hcnt, hall⟩ :=
          ih s (fun x hx => hsub x (List.mem_cons_of_mem _ hx)) inv htodo'
        refine ⟨s', ?_, inv2, ev, hev, ?_, hall⟩
        · rw [runItems, hfile, if_neg hfi, hdir, if_neg hdi]
          exact heq2
        · rw [jobPairs_cons, hpi, List.nil_append]
          exact hcnt

lemma run_run2 {fs0 : FSNode} {destF : FPath} {items : List FPath}
    (hctx : JobCtx fs0 destF items)
    (htot : calculate_total_files fs0 items ≠ 0)
    {fs1 : FSNode}
    (inv : RunInv fs0 destF fs1 (jobPairs fs0 destF items) [] []) :
    ∃ s2 : WState, BackupWorker.run noFail items destF fs1 = (s2, none) ∧
      s2.events.countP isSkipEvent = calculate_total_files fs0 items ∧
      ∀ e ∈ s2.events, isCopiedEvent e = false ∧ isFailureEvent e = false := by
  have hlook : ∀ i ∈ items, lookup fs1 i = lookup fs0 i := by
    intro i hi
    exact inv.src i (hctx.disj i hi).1 (hctx.disj i hi).2
  have hcalc : calculate_total_files fs1 items = calculate_total_files fs0 items :=
    calc_congr hlook
  have htot1 : calculate_total_files fs1 items ≠ 0 := by
    rw [hcalc]
    exact htot
  obtain ⟨s', heq, inv', ev, hev, hcnt, hall⟩ :=
    runItems_run2 hctx htot1 (fun pr hpr => hpr) items ⟨fs1, 0, []⟩
      (fun x hx => hx) inv (fun pr hpr => hpr)
  have hev' : s'.events = ev := by
    rw [hev]
    rfl
  refine ⟨⟨s'.fs, s'.processed, s'.events ++ [Event.completed]⟩, ?_, ?_, ?_⟩
  · unfold BackupWorker.run
    dsimp only
    rw [heq]
  · show (s'.events ++ [Event.completed]).countP isSkipEvent = _
    rw [List.countP_append, hev', hcnt, ← calc_eq_pairs fs0 destF items]
    simp [isSkipEvent]
  · show ∀ e ∈ s'.events ++ [Event.completed], _
    intro e he
    rcases List.mem_append.mp he with h1 | h1
    · rw [hev'] at h1
      exact hall e h1
    · simp at h1
      rw [h1]
      exact ⟨rfl, rfl⟩

/-- **C8** (corrected): provided distinct items map to distinct destination
paths (pairwise distinct basenames) and the destination root is an existing
empty directory disjoint from every source item (neither inside the other),
running the same job twice in a row with no source modification and no
filesystem errors makes the second run report every file in the tree as
Skipped: both runs complete, the second run's event stream carries exactly
`totalUnits` `Skipped ... (No changes)` progress emissions and no `Copied`
and no error-carrying emission — because each successful copy preserves the
source's modification time and size on the destination. -/
theorem C8_theorem (fs0 : FSNode) (destF : FPath) (items : List FPath)
    (hwf : wfNode fs0 = true)
    (hroot : lookup fs0 destF = some (.dir []))
    (hdisj : ∀ i ∈ items, pre i destF = false ∧ pre destF i = false)
    (hbase : items.Pairwise (fun a b => basename a ≠ basename b))
    (htot : calculate_total_files fs0 items ≠ 0) :
    ∃ s1 s2 : WState,
      BackupWorker.run noFail items destF fs0 = (s1, none) ∧
      BackupWorker.run noFail items destF s1.fs = (s2, none) ∧
      s2.events.countP isSkipEvent = calculate_total_files fs0 items ∧
      ∀ e ∈ s2.events, isCopiedEvent e = false ∧ isFailureEvent e = false := by
  have hctx : JobCtx fs0 destF items := ⟨hwf, hroot, hdisj, hbase⟩
  obtain ⟨t1, heq1, inv1⟩ := run_run1 hctx htot
  obtain ⟨s2, heq2, hcnt, hall⟩ := run_run2 hctx htot inv1
  exact ⟨_, s2, heq1, heq2, hcnt, hall⟩

/-- Witness for C8: the two-item job (nested folder `src`, standalone file
`z`, empty destination root `dst`) satisfies every hypothesis, so running it
twice makes the second run report all three files as unchanged skips. -/
theorem C8_witness :
    ∃ s1 s2 : WState,
      BackupWorker.run noFail [["src"], ["z"]] ["dst"] fsBadGood = (s1, none) ∧
      BackupWorker.run noFail [["src"], ["z"]] ["dst"] s1.fs = (s2, none) ∧
      s2.events.countP isSkipEvent =
        calculate_total_files fsBadGood [["src"], ["z"]] ∧
      ∀ e ∈ s2.events, isCopiedEvent e = false ∧ isFailureEvent e = false :=
  C8_theorem fsBadGood ["dst"] [["src"], ["z"]] (by decide) rfl (by decide)
    (by decide) (by decide)
